import Mathlib

/-!
Verification development for a road-network routing program: graph
construction from OSM-style node/way records, a generic best-first search
engine (uniform-cost search, optionally A* with a geodesic heuristic), and
the two coordinate-path assemblers built on top of it.

Python integers are modelled as `Nat` (node identifiers) and Python floats
as `ℚ`.  Python dictionaries are modelled as insertion-ordered association
lists: updating an existing key keeps its position and a fresh key is
appended, matching CPython dict semantics.  Computations that can raise an
uncaught Python exception (`KeyError`, `TypeError`, `ZeroDivisionError`)
are modelled in `Except Unit`; the search loop additionally takes a fuel
argument, with `none` meaning the fuel ran out before the `while` loop
finished.
-/

/-- A coordinate: (latitude, longitude), Python floats modelled as rationals. -/
abbrev Coord : Type := ℚ × ℚ

/-- Python dict update `d[k] = v` on an insertion-ordered association list:
an existing key keeps its position, a new key is appended at the end. -/
def dinsert {α β : Type} [DecidableEq α] : List (α × β) → α → β → List (α × β)
  | [], k, v => [(k, v)]
  | (k0, v0) :: rest, k, v =>
    if k0 = k then (k, v) :: rest else (k0, v0) :: dinsert rest k v

/-- Python dict lookup `d[k]` (as an `Option`, `none` when `k not in d`). -/
def dlookup {α β : Type} [DecidableEq α] : List (α × β) → α → Option β
  | [], _ => none
  | (k0, v0) :: rest, k => if k0 = k then some v0 else dlookup rest k

/-- A way record as read by `build_auxiliary_structures`: the code only ever
inspects the tags `highway`, `maxspeed_mph` and `oneway`, so the tag
dictionary is modelled by those three optional fields, plus the ordered
node-id list `way['nodes']`. -/
structure OsmWay where
  highway : Option String
  maxspeed_mph : Option ℚ
  oneway : Option String
  nodes : List Nat
deriving DecidableEq

/-- A node record: id, latitude, longitude and its free-form tag mapping. -/
structure OsmNode where
  id : Nat
  lat : ℚ
  lon : ℚ
  tags : List (String × String)
deriving DecidableEq

/-- One value of the auxiliary dictionary `my_structure[node_id]`.  In the
Python code `lat`/`lon`/`tags` are set together by the node pass (so they are
modelled by options that are populated together); `connected` is the adjacency
dictionary from neighbour id to speed limit. -/
structure NodeEntry where
  latlon : Option Coord
  tags : Option (List (String × String))
  connected : List (Nat × ℚ)
deriving DecidableEq

/-- The auxiliary structure: the node-id keyed part of `my_structure`, plus
the `'locations'` sub-dictionary.  (In Python both live in one dict; integer
node ids never collide with the string key `'locations'`, so splitting them
is faithful.) -/
structure Aux where
  entries : List (Nat × NodeEntry)
  locations : List (Coord × Nat)
deriving DecidableEq

/-- `ALLOWED_HIGHWAY_TYPES` from the source (a set; only membership is used). -/
def ALLOWED_HIGHWAY_TYPES : List String :=
  ["motorway", "trunk", "primary", "secondary", "tertiary", "unclassified",
   "residential", "living_street", "motorway_link", "trunk_link",
   "primary_link", "secondary_link", "tertiary_link"]

/-- `DEFAULT_SPEED_LIMIT_MPH` from the source. -/
def DEFAULT_SPEED_LIMIT_MPH : List (String × ℚ) :=
  [("motorway", 60), ("trunk", 45), ("primary", 35), ("secondary", 30),
   ("residential", 25), ("tertiary", 25), ("unclassified", 25),
   ("living_street", 10), ("motorway_link", 30), ("trunk_link", 30),
   ("primary_link", 30), ("secondary_link", 30), ("tertiary_link", 25)]

/-- Whether a way passes the road-class filter:
`'highway' in way['tags'] and way['tags']['highway'] in ALLOWED_HIGHWAY_TYPES`. -/
def acceptedWay (w : OsmWay) : Bool :=
  match w.highway with
  | some hw => decide (hw ∈ ALLOWED_HIGHWAY_TYPES)
  | none => false

/-- Whether a way is one-way: `'oneway' in way['tags'] and way['tags']['oneway'] == 'yes'`. -/
def onewayYes (w : OsmWay) : Bool := w.oneway = some "yes"

/-- The way's resolved speed limit: the explicit `maxspeed_mph` tag when
present, otherwise the class default `DEFAULT_SPEED_LIMIT_MPH[highway]`.
(The code only evaluates the default inside the accepted branch, where the
highway tag is present and is a key of the table, so the `getD 0` fallbacks
are never exercised there.) -/
def resolvedSpeed (w : OsmWay) : ℚ :=
  match w.maxspeed_mph with
  | some s => s
  | none => (dlookup DEFAULT_SPEED_LIMIT_MPH (w.highway.getD "")).getD 0

/-- Record the directed edge `a → b` with weight `s`:
`my_structure[prev_node_id]['connected'][node] = speed_limit`, creating the
entry for `a` (with only a `connected` field) when absent. -/
def addEdge (entries : List (Nat × NodeEntry)) (a b : Nat) (s : ℚ) :
    List (Nat × NodeEntry) :=
  match dlookup entries a with
  | some e => dinsert entries a { e with connected := dinsert e.connected b s }
  | none => entries ++ [(a, ⟨none, none, [(b, s)]⟩)]

/-- One iteration of a walk over a way's node list.  The state is
(entries, connected_nodes, prev_node_id).  `if prev_node_id:` is Python
truthiness: both `None` and the integer `0` are falsy, so edges whose source
id is `0` are never recorded. -/
def walkStep (speed : ℚ) (st : List (Nat × NodeEntry) × List Nat × Option Nat)
    (node : Nat) : List (Nat × NodeEntry) × List Nat × Option Nat :=
  match st with
  | (entries, conn, prev) =>
    let entries1 :=
      match prev with
      | some p => if p = 0 then entries else addEdge entries p node speed
      | none => entries
    (entries1, node :: conn, some node)

/-- One full walk over a node list (`prev_node_id = None` initially). -/
def walkWay (speed : ℚ) (entries : List (Nat × NodeEntry)) (conn : List Nat)
    (ns : List Nat) : List (Nat × NodeEntry) × List Nat :=
  match ns.foldl (walkStep speed) (entries, conn, none) with
  | (e, c, _) => (e, c)

/-- Processing of one way record inside `build_auxiliary_structures`: skip it
unless accepted; otherwise walk its node list front-to-back and, unless the
way is tagged one-way `"yes"`, also back-to-front. -/
def processWay (st : List (Nat × NodeEntry) × List Nat) (w : OsmWay) :
    List (Nat × NodeEntry) × List Nat :=
  if acceptedWay w then
    let speed := resolvedSpeed w
    let fwd := walkWay speed st.1 st.2 w.nodes
    if onewayYes w then fwd
    else walkWay speed fwd.1 fwd.2 w.nodes.reverse
  else st

/-- Processing of one node record: if its id was seen in an accepted way,
attach (or create an entry with) its coordinate and tags, and register the
coordinate in the `'locations'` index. -/
def processNode (conn : List Nat) (st : Aux) (n : OsmNode) : Aux :=
  if n.id ∈ conn then
    { entries :=
        match dlookup st.entries n.id with
        | some e =>
            dinsert st.entries n.id
              { e with latlon := some (n.lat, n.lon), tags := some n.tags }
        | none => st.entries ++ [(n.id, ⟨some (n.lat, n.lon), some n.tags, []⟩)],
      locations := dinsert st.locations (n.lat, n.lon) n.id }
  else st

/-- `build_auxiliary_structures`: the way pass followed by the node pass.
The streams are modelled as lists of records. -/
def build_auxiliary_structures (nodesL : List OsmNode) (waysL : List OsmWay) :
    Aux :=
  match waysL.foldl processWay ([], []) with
  | (entries, conn) =>
    nodesL.foldl (processNode conn) { entries := entries, locations := [] }

/-- The weight of directed edge `a → b` in an entry list (`none` = absent). -/
def edgeWeightOf (entries : List (Nat × NodeEntry)) (a b : Nat) : Option ℚ :=
  match dlookup entries a with
  | some e => dlookup e.connected b
  | none => none

/-- The weight of directed edge `a → b` in the built auxiliary structure. -/
def edgeWeight (aux : Aux) (a b : Nat) : Option ℚ := edgeWeightOf aux.entries a b

/-- The consecutive pairs of a node list (each node with its successor). -/
def pairsOf (l : List Nat) : List (Nat × Nat) := l.zip l.tail

/-- Whether processing way `w` records the directed edge `a → b`: the way is
accepted, the source id is nonzero (Python truthiness of `prev_node_id`),
and `(a, b)` is a consecutive pair of the node list — either front-to-back,
or back-to-front when the way is not one-way. -/
def wayRecords (w : OsmWay) (a b : Nat) : Bool :=
  acceptedWay w && decide (a ≠ 0) &&
    (decide ((a, b) ∈ pairsOf w.nodes) ||
      (!onewayYes w && decide ((a, b) ∈ pairsOf w.nodes.reverse)))

/-- `get_lat_lon`: returns the coordinate pair of a node id, or `none` when
the id is not a key of the structure at all.  When the id is a key but its
entry was never completed by the node pass (it has a `connected` field but
no `'lat'`), the Python subscript `aux_structures[node_id]['lat']` raises
`KeyError`, modelled as `Except.error ()`. -/
def get_lat_lon (aux : Aux) (node_id : Nat) : Except Unit (Option Coord) :=
  match dlookup aux.entries node_id with
  | some e =>
    match e.latlon with
    | some ll => Except.ok (some ll)
    | none => Except.error ()
  | none => Except.ok none

/-- An agenda entry of the search: a path (node-id list) with its accumulated
cost, matching the 2-tuples held in the Python `agenda` list. -/
abbrev SearchEntry : Type := List Nat × ℚ

/-- `List.map` in the `Except` monad, aborting at the first error — the
evaluation order of a Python `for` loop that may raise. -/
def mapE {α β : Type} (f : α → Except Unit β) : List α → Except Unit (List β)
  | [] => Except.ok []
  | a :: as =>
    match f a with
    | Except.error u => Except.error u
    | Except.ok b =>
      match mapE f as with
      | Except.error u => Except.error u
      | Except.ok bs => Except.ok (b :: bs)

/-- `List.filterMap` in the `Except` monad, aborting at the first error. -/
def filterMapE {α β : Type} (f : α → Except Unit (Option β)) :
    List α → Except Unit (List β)
  | [] => Except.ok []
  | a :: as =>
    match f a with
    | Except.error u => Except.error u
    | Except.ok none => filterMapE f as
    | Except.ok (some b) =>
      match filterMapE f as with
      | Except.error u => Except.error u
      | Except.ok bs => Except.ok (b :: bs)

/-- The priority of an agenda entry in the frontier scan: accumulated cost
`g` alone without heuristic, `g + h(terminal)` with it (the heuristic value
`h` may raise, see `engineHeur`). -/
def priorityM (hfun : Nat → Except Unit ℚ) (heuristic : Bool) (e : SearchEntry) :
    Except Unit ℚ :=
  if heuristic then
    match hfun (e.1.getLastD 0) with
    | Except.error u => Except.error u
    | Except.ok h => Except.ok (e.2 + h)
  else Except.ok e.2

/-- The priority of an agenda entry when the heuristic is a total function. -/
def prioP (hP : Nat → ℚ) (heuristic : Bool) (e : SearchEntry) : ℚ :=
  if heuristic then e.2 + hP (e.1.getLastD 0) else e.2

/-- The scan for the agenda index of least priority, mirroring the Python
accumulator loop: `min_cost`/`min_index` updated on a strict `<`, so the
first index attaining the minimum wins. -/
def scanMinLoop : List ℚ → Nat → Nat → ℚ → Nat
  | [], _, besti, _ => besti
  | p :: rest, i, besti, bestv =>
    if p < bestv then scanMinLoop rest (i + 1) i p
    else scanMinLoop rest (i + 1) besti bestv

/-- Index of the first minimal element of a priority list (`0` on `[]`,
matching `min_index = 0` when the loop never runs). -/
def scanMinIdx : List ℚ → Nat
  | [] => 0
  | p :: rest => scanMinLoop rest 1 0 p

/-- The body of the neighbour loop for one neighbour `n` of the expanded
terminal `t` (pure cost function): skip `n` if already expanded, evaluate
`c = cost(t, n)`, and push the extended path `(path + [n], g + c)` only when
`c` is truthy — Python `if c:` is false both for `None` and for a cost of
exactly `0`. -/
def pushFnP (costP : Nat → Nat → Option ℚ) (exp : List Nat) (t : Nat)
    (p : List Nat) (g : ℚ) (n : Nat) : Option SearchEntry :=
  if n ∈ exp then none
  else
    match costP t n with
    | none => none
    | some c => if c = 0 then none else some (p ++ [n], g + c)

/-- All entries pushed while expanding terminal `t`, in neighbour order. -/
def pushListP (costP : Nat → Nat → Option ℚ) (exp : List Nat) (t : Nat)
    (p : List Nat) (g : ℚ) (ns : List Nat) : List SearchEntry :=
  ns.filterMap (pushFnP costP exp t p g)

/-- The neighbour-loop body when the cost function may raise. -/
def pushFnM (cost : Nat → Nat → Except Unit (Option ℚ)) (exp : List Nat)
    (t : Nat) (p : List Nat) (g : ℚ) (n : Nat) : Except Unit (Option SearchEntry) :=
  if n ∈ exp then Except.ok none
  else
    match cost t n with
    | Except.error u => Except.error u
    | Except.ok none => Except.ok none
    | Except.ok (some c) =>
      if c = 0 then Except.ok none else Except.ok (some (p ++ [n], g + c))

/-- The agenda index popped by one iteration (first minimum of the
priorities) when the heuristic is total. -/
def popIdx (hP : Nat → ℚ) (heuristic : Bool) (ag : List SearchEntry) : Nat :=
  scanMinIdx (ag.map (prioP hP heuristic))

/-- The `while agenda:` loop of `uniform_cost_search` with total cost and
heuristic functions.  The outer `Option` is the fuel: `none` means the fuel
ran out, `some r` that the loop finished with result `r` (`some path` from
the goal test, `none` from frontier exhaustion). -/
def searchLoopP (nbrs : Nat → List Nat) (costP : Nat → Nat → Option ℚ)
    (hP : Nat → ℚ) (heuristic : Bool) (goal : Nat) :
    Nat → List SearchEntry → List Nat → Option (Option (List Nat))
  | 0, _, _ => none
  | _ + 1, [], _ => some none
  | fuel + 1, e :: es, expanded =>
    let pe := (e :: es).getD (popIdx hP heuristic (e :: es)) ([], 0)
    let rest := (e :: es).eraseIdx (popIdx hP heuristic (e :: es))
    if pe.1.getLastD 0 ∈ expanded then
      searchLoopP nbrs costP hP heuristic goal fuel rest expanded
    else if pe.1.getLastD 0 = goal then some (some pe.1)
    else
      searchLoopP nbrs costP hP heuristic goal fuel
        (rest ++ pushListP costP (expanded ++ [pe.1.getLastD 0])
          (pe.1.getLastD 0) pe.1 pe.2 (nbrs (pe.1.getLastD 0)))
        (expanded ++ [pe.1.getLastD 0])

/-- The `while agenda:` loop of `uniform_cost_search` in full generality:
the cost function and the heuristic may raise (an uncaught Python exception
aborts the whole search, `some (Except.error ())`). -/
def searchLoopM (nbrs : Nat → List Nat) (cost : Nat → Nat → Except Unit (Option ℚ))
    (hfun : Nat → Except Unit ℚ) (heuristic : Bool) (goal : Nat) :
    Nat → List SearchEntry → List Nat → Option (Except Unit (Option (List Nat)))
  | 0, _, _ => none
  | _ + 1, [], _ => some (Except.ok none)
  | fuel + 1, e :: es, expanded =>
    match mapE (priorityM hfun heuristic) (e :: es) with
    | Except.error u => some (Except.error u)
    | Except.ok ps =>
      let pe := (e :: es).getD (scanMinIdx ps) ([], 0)
      let rest := (e :: es).eraseIdx (scanMinIdx ps)
      if pe.1.getLastD 0 ∈ expanded then
        searchLoopM nbrs cost hfun heuristic goal fuel rest expanded
      else if pe.1.getLastD 0 = goal then some (Except.ok (some pe.1))
      else
        match filterMapE (pushFnM cost (expanded ++ [pe.1.getLastD 0])
            (pe.1.getLastD 0) pe.1 pe.2) (nbrs (pe.1.getLastD 0)) with
        | Except.error u => some (Except.error u)
        | Except.ok pushes =>
          searchLoopM nbrs cost hfun heuristic goal fuel (rest ++ pushes)
            (expanded ++ [pe.1.getLastD 0])

/-- The heuristic computed inline by the engine:
`great_circle_distance(get_lat_lon(node, aux), get_lat_lon(goal, aux))`.
If either lookup raises, or returns `None` (the geodesic primitive then
fails on a `None` argument), the whole evaluation raises. -/
def engineHeur (gcd : Coord → Coord → ℚ) (aux : Aux) (goal : Nat) (n : Nat) :
    Except Unit ℚ :=
  match get_lat_lon aux n with
  | Except.error u => Except.error u
  | Except.ok l1 =>
    match get_lat_lon aux goal with
    | Except.error u => Except.error u
    | Except.ok l2 =>
      match l1, l2 with
      | some a, some b => Except.ok (gcd a b)
      | _, _ => Except.error ()

/-- `uniform_cost_search(start, goal, neighbors, cost, aux_structures,
heuristic)`: initial agenda `[([start], 0)]`, empty expanded set.  The
geodesic primitive `gcd` and the loop fuel are explicit model parameters. -/
def uniform_cost_search (gcd : Coord → Coord → ℚ) (fuel : Nat)
    (start goal : Nat) (neighbors : Nat → List Nat)
    (cost : Nat → Nat → Except Unit (Option ℚ)) (aux : Aux) (heuristic : Bool) :
    Option (Except Unit (Option (List Nat))) :=
  searchLoopM neighbors cost (engineHeur gcd aux goal) heuristic goal fuel
    [([start], 0)] []

/-- Python truthiness of an optional node id: `None` and `0` are falsy. -/
def natOptTruthy : Option Nat → Bool
  | none => false
  | some n => n != 0

/-- `get_nearest_node_id`: linear scan over the `'locations'` index keeping
the first strict minimum of the distance to `loc`; `none` when the index is
empty. -/
def get_nearest_node_id (gcd : Coord → Coord → ℚ) (loc : Coord) (aux : Aux) :
    Option Nat :=
  (aux.locations.foldl
    (fun st li =>
      match st, li with
      | (minDist, minId), (l, i) =>
        match minDist with
        | none => (some (gcd loc l), some i)
        | some m =>
          if m > gcd loc l then (some (gcd loc l), some i) else (minDist, minId))
    (none, none)).2

/-- The direct coordinate access `(aux[node_id]['lat'], aux[node_id]['lon'])`
used by the assemblers (raises when the id or its coordinate is missing). -/
def nodeLoc (aux : Aux) (node_id : Nat) : Except Unit Coord :=
  match dlookup aux.entries node_id with
  | some e =>
    match e.latlon with
    | some ll => Except.ok ll
    | none => Except.error ()
  | none => Except.error ()

/-- The `neighbors` closure shared by the three search callers: the keys of
`aux_structures[node_id]['connected']` (the Python empty-check returns the
same thing in both branches).  Python raises on an id that is not a key of
the structure; the callers only ever reach ids that are, and the model
returns `[]` there. -/
def connNeighbors (aux : Aux) (node_id : Nat) : List Nat :=
  match dlookup aux.entries node_id with
  | some e => e.connected.map Prod.fst
  | none => []

/-- The distance cost closure of `find_short_path` / `find_short_path_nodes`:
great-circle distance between the endpoint coordinates when both exist,
`None` when either `get_lat_lon` returns `None`, propagating any raise. -/
def distCost (gcd : Coord → Coord → ℚ) (aux : Aux) (u v : Nat) :
    Except Unit (Option ℚ) :=
  match get_lat_lon aux u with
  | Except.error u0 => Except.error u0
  | Except.ok l1 =>
    match get_lat_lon aux v with
    | Except.error u0 => Except.error u0
    | Except.ok l2 =>
      match l1, l2 with
      | some a, some b => Except.ok (some (gcd a b))
      | _, _ => Except.ok none

/-- The time cost closure of `find_fast_path`: as `distCost` but divided by
the stored speed limit `aux[u]['connected'][v]`, whose lookup happens before
the coordinate check and may raise; division by a zero speed limit raises. -/
def timeCost (gcd : Coord → Coord → ℚ) (aux : Aux) (u v : Nat) :
    Except Unit (Option ℚ) :=
  match get_lat_lon aux u with
  | Except.error u0 => Except.error u0
  | Except.ok l1 =>
    match get_lat_lon aux v with
    | Except.error u0 => Except.error u0
    | Except.ok l2 =>
      match dlookup aux.entries u with
      | none => Except.error ()
      | some eu =>
        match dlookup eu.connected v with
        | none => Except.error ()
        | some sl =>
          match l1, l2 with
          | some a, some b =>
            if sl = 0 then Except.error () else Except.ok (some (gcd a b / sl))
          | _, _ => Except.ok none

/-- `find_short_path_nodes`: trivial path on equal endpoints, otherwise the
engine with the distance cost and the heuristic enabled. -/
def find_short_path_nodes (gcd : Coord → Coord → ℚ) (fuel : Nat) (aux : Aux)
    (node1 node2 : Nat) : Option (Except Unit (Option (List Nat))) :=
  if node1 = node2 then some (Except.ok (some [node1]))
  else
    uniform_cost_search gcd fuel node1 node2 (connNeighbors aux)
      (distCost gcd aux) aux true

/-- `convert_nodes_path_to_loc_path`: map node ids to coordinates; both
`None` and the empty list are falsy, giving `None`. -/
def convert_nodes_path_to_loc_path (aux : Aux) :
    Option (List Nat) → Except Unit (Option (List Coord))
  | none => Except.ok none
  | some [] => Except.ok none
  | some (n :: rest) =>
    match mapE (nodeLoc aux) (n :: rest) with
    | Except.error u => Except.error u
    | Except.ok cs => Except.ok (some cs)

/-- `find_short_path`: resolve both coordinates (Python truthiness makes a
resolved id of `0` count as unresolved), short-circuit equal ids, otherwise
run the engine with heuristic and convert the node path. -/
def find_short_path (gcd : Coord → Coord → ℚ) (fuel : Nat) (aux : Aux)
    (loc1 loc2 : Coord) : Option (Except Unit (Option (List Coord))) :=
  let n1 := get_nearest_node_id gcd loc1 aux
  let n2 := get_nearest_node_id gcd loc2 aux
  if !natOptTruthy n1 || !natOptTruthy n2 then some (Except.ok none)
  else
    match n1, n2 with
    | some a, some b =>
      if a = b then some ((nodeLoc aux a).map (fun ll => some [ll]))
      else
        match uniform_cost_search gcd fuel a b (connNeighbors aux)
            (distCost gcd aux) aux true with
        | none => none
        | some (Except.error u) => some (Except.error u)
        | some (Except.ok r) => some (convert_nodes_path_to_loc_path aux r)
    | _, _ => some (Except.ok none)

/-- `find_fast_path`: as `find_short_path` but with the time cost and no
heuristic. -/
def find_fast_path (gcd : Coord → Coord → ℚ) (fuel : Nat) (aux : Aux)
    (loc1 loc2 : Coord) : Option (Except Unit (Option (List Coord))) :=
  let n1 := get_nearest_node_id gcd loc1 aux
  let n2 := get_nearest_node_id gcd loc2 aux
  if !natOptTruthy n1 || !natOptTruthy n2 then some (Except.ok none)
  else
    match n1, n2 with
    | some a, some b =>
      if a = b then some ((nodeLoc aux a).map (fun ll => some [ll]))
      else
        match uniform_cost_search gcd fuel a b (connNeighbors aux)
            (timeCost gcd aux) aux false with
        | none => none
        | some (Except.error u) => some (Except.error u)
        | some (Except.ok r) => some (convert_nodes_path_to_loc_path aux r)
    | _, _ => some (Except.ok none)

/-- The cost function with zero costs removed: the edges the engine can
actually traverse, given Python's `if c:` truthiness test. -/
def truthyCost (costP : Nat → Nat → Option ℚ) (u v : Nat) : Option ℚ :=
  match costP u v with
  | some c => if c = 0 then none else some c
  | none => none

/-- A directed edge of the search graph: `b` is listed among the neighbours
of `a` and the cost function yields a value on `(a, b)`. -/
def isEdge (nbrs : Nat → List Nat) (costP : Nat → Nat → Option ℚ)
    (a b : Nat) : Bool :=
  decide (b ∈ nbrs a) && (costP a b).isSome

/-- Whether a node list is a path of the search graph: every consecutive
pair is an edge. -/
def isChain (nbrs : Nat → List Nat) (costP : Nat → Nat → Option ℚ) :
    List Nat → Bool
  | [] => true
  | [_] => true
  | a :: b :: rest => isEdge nbrs costP a b && isChain nbrs costP (b :: rest)

/-- The accumulated cost of a node list (absent edges count 0; only applied
to lists that `isChain` accepts). -/
def pathCost (costP : Nat → Nat → Option ℚ) : List Nat → ℚ
  | [] => 0
  | [_] => 0
  | a :: b :: rest => (costP a b).getD 0 + pathCost costP (b :: rest)

/-- The effective heuristic used by the priority scan: the supplied function
when the heuristic is enabled, constantly `0` otherwise. -/
def heurOf (hP : Nat → ℚ) (heuristic : Bool) : Nat → ℚ :=
  fun n => if heuristic then hP n else 0

/-- The loop invariant of the search: every agenda entry is a real path from
`start` carrying its true accumulated cost; the goal is never expanded; an
unexpanded `start` is covered by its zero-cost entry; and every edge leaving
the expanded region towards an unexpanded node has an agenda entry for the
target whose cost is at most (any path cost to the source) + edge cost. -/
structure SearchInv (nbrs : Nat → List Nat) (costP : Nat → Nat → Option ℚ)
    (start goal : Nat) (agenda : List SearchEntry) (expanded : List Nat) :
    Prop where
  sound : ∀ e ∈ agenda, e.1 ≠ [] ∧ e.1.head? = some start ∧
    isChain nbrs costP e.1 = true ∧ pathCost costP e.1 = e.2
  goalFree : goal ∉ expanded
  startCover : start ∉ expanded →
    ∃ e ∈ agenda, e.1.getLastD 0 = start ∧ e.2 ≤ 0
  frontier : ∀ x ∈ expanded, ∀ n ∈ nbrs x, ∀ c, costP x n = some c →
    n ∉ expanded → ∃ e ∈ agenda, e.1.getLastD 0 = n ∧
      ∀ R, isChain nbrs costP R = true → R.head? = some start →
        R.getLast? = some x → e.2 ≤ pathCost costP R + c

deriving instance DecidableEq for Except

/-- Absolute value of a rational, written so that it evaluates by kernel
reduction. -/
def ratAbs (x : ℚ) : ℚ := if x < 0 then -x else x

/-- A concrete stand-in for the external geodesic primitive, used to evaluate
concrete scenarios: the L1 distance on rational coordinates (symmetric,
nonnegative, zero exactly on equal coordinates, triangle inequality). -/
def gcdL1 : Coord → Coord → ℚ := fun p q => ratAbs (p.1 - q.1) + ratAbs (p.2 - q.2)

/-- A way with only a road-class tag. -/
def mkWay (hw : String) (ns : List Nat) : OsmWay := ⟨some hw, none, none, ns⟩

/-- A node record with empty tags. -/
def mkNode (i : Nat) (la lo : ℚ) : OsmNode := ⟨i, la, lo, []⟩

/-- Scenario for the missing-coordinate failure: node `2` is referenced by an
accepted two-way way but absent from the node stream, so its entry (created
by the back-to-front walk) has no coordinate. -/
def auxMissing : Aux :=
  build_auxiliary_structures [mkNode 1 0 0, mkNode 3 5 5]
    [mkWay "residential" [1, 2], mkWay "residential" [1, 3]]

/-- Scenario with a node whose id is `0`: the two-way way `[1, 0]` yields
only the edge `1 → 0` (the reverse pass skips source `0`), and both nodes are
indexed. -/
def auxZero : Aux :=
  build_auxiliary_structures [mkNode 0 0 0, mkNode 1 5 5]
    [mkWay "residential" [1, 0]]

/-- Scenario for the two-way-edges claim: way `[0, 1, 2]` (class default
speed 25) followed by a way `[1, 2]` with an explicit speed-limit tag 60
that overwrites the shared edge. -/
def auxOverwrite : Aux :=
  build_auxiliary_structures [mkNode 0 0 0, mkNode 1 1 1, mkNode 2 2 2]
    [mkWay "residential" [0, 1, 2], ⟨some "residential", some 60, none, [1, 2]⟩]

/-- A three-node synthetic graph with a zero-cost edge `1 → 2`:
`1 → 2` costs 0, `2 → 3` costs 5, `1 → 3` costs 6. -/
def exNbrs : Nat → List Nat := fun n =>
  if n = 1 then [2, 3] else if n = 2 then [3] else []

/-- The cost function of the zero-cost-edge scenario (all costs nonnegative). -/
def exCost0 : Nat → Nat → Option ℚ := fun u v =>
  if u = 1 ∧ v = 2 then some 0
  else if u = 2 ∧ v = 3 then some 5
  else if u = 1 ∧ v = 3 then some 6
  else none

/-- The same graph with strictly positive costs (`1 → 2` costs 2). -/
def exCostPos : Nat → Nat → Option ℚ := fun u v =>
  if u = 1 ∧ v = 2 then some 2
  else if u = 2 ∧ v = 3 then some 5
  else if u = 1 ∧ v = 3 then some 6
  else none

/-! ### Basic list lemmas -/

theorem getD_mem {α : Type} (l : List α) (i : Nat) (d : α) (h : i < l.length) :
    l.getD i d ∈ l := by
  induction l generalizing i with
  | nil => simp at h
  | cons a as ih =>
    cases i with
    | zero => simp
    | succ j =>
      simp only [List.getD_cons_succ]
      exact List.mem_cons_of_mem _ (ih j (by simpa using h))

theorem mem_of_mem_eraseIdx {α : Type} {e : α} :
    ∀ {l : List α} {i : Nat}, e ∈ l.eraseIdx i → e ∈ l := by
  intro l
  induction l with
  | nil => intro i h; simp [List.eraseIdx] at h
  | cons a as ih =>
    intro i h
    cases i with
    | zero =>
      exact List.mem_cons_of_mem _ (by simpa [List.eraseIdx] using h)
    | succ j =>
      rcases List.mem_cons.mp (by simpa [List.eraseIdx] using h) with h1 | h1
      · exact h1 ▸ List.mem_cons_self _ _
      · exact List.mem_cons_of_mem _ (ih h1)

theorem mem_eraseIdx_of_ne {α : Type} {e d : α} :
    ∀ {l : List α} {i : Nat}, e ∈ l → e ≠ l.getD i d → e ∈ l.eraseIdx i := by
  intro l
  induction l with
  | nil => intro i h _; simp at h
  | cons a as ih =>
    intro i h hne
    cases i with
    | zero =>
      rcases List.mem_cons.mp h with h1 | h1
      · exact absurd (by simpa using h1) (by simpa using hne)
      · simpa [List.eraseIdx] using h1
    | succ j =>
      rcases List.mem_cons.mp h with h1 | h1
      · simp [List.eraseIdx, h1]
      · simpa [List.eraseIdx] using
          Or.inr (ih h1 (by simpa [List.getD_cons_succ] using hne))

theorem getD_map_eq {α β : Type} (f : α → β) (l : List α) (i : Nat) (d : α)
    (d2 : β) (hi : i < l.length) : (l.map f).getD i d2 = f (l.getD i d) := by
  simp [List.getD_eq_getElem?_getD, List.getElem?_eq_getElem hi,
    List.getElem?_eq_getElem (by simpa using hi : i < (l.map f).length)]

theorem getLastD_append_single {α : Type} (l : List α) (n d : α) :
    (l ++ [n]).getLastD d = n := by
  simp [List.getLastD_concat]

/-! ### Specification of the frontier scan -/

theorem scanMinLoop_spec (ps : List ℚ) :
    ∀ (i besti : Nat) (bestv : ℚ), besti < i →
      (scanMinLoop ps i besti bestv = besti ∧ ∀ q ∈ ps, bestv ≤ q) ∨
      (∃ j, j < ps.length ∧ scanMinLoop ps i besti bestv = i + j ∧
        ps.getD j 0 ≤ bestv ∧ ∀ q ∈ ps, ps.getD j 0 ≤ q) := by
  induction ps with
  | nil =>
    intro i besti bestv _
    exact Or.inl ⟨rfl, by simp⟩
  | cons p rest ih =>
    intro i besti bestv hbi
    by_cases hlt : p < bestv
    · rcases ih (i + 1) i p (Nat.lt_succ_self i) with ⟨heq, hall⟩ | ⟨j, hj, heq, hle, hall⟩
      · refine Or.inr ⟨0, by simp, ?_, ?_, ?_⟩
        · simp [scanMinLoop, hlt, heq]
        · simpa using le_of_lt hlt
        · intro q hq
          rcases List.mem_cons.mp hq with h1 | h1
          · simp [h1]
          · simpa using hall q h1
      · refine Or.inr ⟨j + 1, by simpa using hj, ?_, ?_, ?_⟩
        · simp only [scanMinLoop, if_pos hlt, heq]; omega
        · simpa [List.getD_cons_succ] using le_of_lt (lt_of_le_of_lt hle hlt)
        · intro q hq
          rcases List.mem_cons.mp hq with h1 | h1
          · simpa [List.getD_cons_succ, h1] using hle
          · simpa [List.getD_cons_succ] using hall q h1
    · have hge : bestv ≤ p := le_of_not_lt hlt
      rcases ih (i + 1) besti bestv (Nat.lt_succ_of_lt hbi) with ⟨heq, hall⟩ | ⟨j, hj, heq, hle, hall⟩
      · refine Or.inl ⟨by simp [scanMinLoop, hlt, heq], ?_⟩
        intro q hq
        rcases List.mem_cons.mp hq with h1 | h1
        · exact h1 ▸ hge
        · exact hall q h1
      · refine Or.inr ⟨j + 1, by simpa using hj, ?_, ?_, ?_⟩
        · simp only [scanMinLoop, if_neg hlt, heq]; omega
        · simpa [List.getD_cons_succ] using hle
        · intro q hq
          rcases List.mem_cons.mp hq with h1 | h1
          · simpa [List.getD_cons_succ, h1] using le_trans hle hge
          · simpa [List.getD_cons_succ] using hall q h1

theorem scanMinIdx_lt (ps : List ℚ) (h : ps ≠ []) : scanMinIdx ps < ps.length := by
  match ps, h with
  | p :: rest, _ =>
    rcases scanMinLoop_spec rest 1 0 p Nat.one_pos with ⟨heq, _⟩ | ⟨j, hj, heq, _, _⟩
    · simp [scanMinIdx, heq]
    · simp only [scanMinIdx, heq, List.length_cons]; omega

theorem scanMinIdx_min (ps : List ℚ) : ∀ q ∈ ps, ps.getD (scanMinIdx ps) 0 ≤ q := by
  match ps with
  | [] => simp
  | p :: rest =>
    intro q hq
    rcases scanMinLoop_spec rest 1 0 p Nat.one_pos with ⟨heq, hall⟩ | ⟨j, hj, heq, hle, hall⟩
    · rcases List.mem_cons.mp hq with h1 | h1
      · simp [scanMinIdx, heq, h1]
      · simpa [scanMinIdx, heq] using hall q h1
    · have h1j : 1 + j = j + 1 := Nat.add_comm 1 j
      rcases List.mem_cons.mp hq with h1 | h1
      · simpa [scanMinIdx, heq, h1j, List.getD_cons_succ, h1] using hle
      · simpa [scanMinIdx, heq, h1j, List.getD_cons_succ] using hall q h1

theorem popIdx_lt (hP : Nat → ℚ) (heuristic : Bool) (ag : List SearchEntry)
    (h : ag ≠ []) : popIdx hP heuristic ag < ag.length := by
  have := scanMinIdx_lt (ag.map (prioP hP heuristic)) (by simpa using h)
  simpa [popIdx] using this

theorem popIdx_min (hP : Nat → ℚ) (heuristic : Bool) (ag : List SearchEntry)
    (h : ag ≠ []) :
    ∀ x ∈ ag, prioP hP heuristic (ag.getD (popIdx hP heuristic ag) ([], 0)) ≤
      prioP hP heuristic x := by
  intro x hx
  have hmem := List.mem_map_of_mem (prioP hP heuristic) hx
  have hmin := scanMinIdx_min (ag.map (prioP hP heuristic)) _ hmem
  have hlt := popIdx_lt hP heuristic ag h
  rw [popIdx] at hlt ⊢
  rwa [getD_map_eq (prioP hP heuristic) ag _ ([], 0) 0 (by simpa [popIdx] using hlt)] at hmin

/-! ### Path lemmas -/

theorem getLastD_irrel {α : Type} :
    ∀ (l : List α), l ≠ [] → ∀ d1 d2 : α, l.getLastD d1 = l.getLastD d2 := by
  intro l
  induction l with
  | nil => intro h; exact absurd rfl h
  | cons a l ih =>
    intro _ d1 d2
    cases l with
    | nil => rfl
    | cons b l2 => exact ih (by simp) a a

theorem isChain_split (nbrs : Nat → List Nat) (costP : Nat → Nat → Option ℚ) :
    ∀ (A : List Nat) (t : Nat) (B : List Nat),
      isChain nbrs costP (A ++ t :: B) = true →
      isChain nbrs costP (A ++ [t]) = true ∧ isChain nbrs costP (t :: B) = true := by
  intro A
  induction A with
  | nil => intro t B h; exact ⟨rfl, h⟩
  | cons a A1 ih =>
    intro t B h
    cases A1 with
    | nil =>
      simp only [List.cons_append, List.nil_append, isChain, Bool.and_eq_true] at h ⊢
      exact ⟨⟨h.1, trivial⟩, h.2⟩
    | cons a1 A2 =>
      simp only [List.cons_append, isChain, Bool.and_eq_true] at h
      have := ih t B (by simpa using h.2)
      constructor
      · simp only [List.cons_append, isChain, Bool.and_eq_true]
        exact ⟨h.1, by simpa using this.1⟩
      · exact this.2

theorem pathCost_split (costP : Nat → Nat → Option ℚ) :
    ∀ (A : List Nat) (t : Nat) (B : List Nat),
      pathCost costP (A ++ t :: B) =
        pathCost costP (A ++ [t]) + pathCost costP (t :: B) := by
  intro A
  induction A with
  | nil => intro t B; simp [pathCost]
  | cons a A1 ih =>
    intro t B
    cases A1 with
    | nil => simp [pathCost]
    | cons a1 A2 =>
      show (costP a a1).getD 0 + pathCost costP ((a1 :: A2) ++ t :: B) =
        ((costP a a1).getD 0 + pathCost costP ((a1 :: A2) ++ [t])) +
          pathCost costP (t :: B)
      rw [ih t B]
      ring

theorem pathCost_snoc (costP : Nat → Nat → Option ℚ) :
    ∀ (p : List Nat) (n : Nat), p ≠ [] →
      pathCost costP (p ++ [n]) =
        pathCost costP p + (costP (p.getLastD 0) n).getD 0 := by
  intro p
  induction p with
  | nil => intro n h; exact absurd rfl h
  | cons a p1 ih =>
    intro n _
    cases p1 with
    | nil => simp [pathCost]
    | cons a1 p2 =>
      show (costP a a1).getD 0 + pathCost costP ((a1 :: p2) ++ [n]) =
        ((costP a a1).getD 0 + pathCost costP (a1 :: p2)) +
          (costP ((a :: a1 :: p2).getLastD 0) n).getD 0
      rw [ih n (by simp)]
      have hlast : (a :: a1 :: p2).getLastD 0 = (a1 :: p2).getLastD 0 := by
        have := getLastD_irrel (a1 :: p2) (by simp) a 0
        simp [List.getLastD_cons, this]
      rw [hlast]
      ring

theorem isChain_snoc (nbrs : Nat → List Nat) (costP : Nat → Nat → Option ℚ) :
    ∀ (p : List Nat) (n : Nat), p ≠ [] → isChain nbrs costP p = true →
      isEdge nbrs costP (p.getLastD 0) n = true →
      isChain nbrs costP (p ++ [n]) = true := by
  intro p
  induction p with
  | nil => intro n h; exact absurd rfl h
  | cons a p1 ih =>
    intro n _ hc he
    cases p1 with
    | nil => simpa [isChain, Bool.and_eq_true] using he
    | cons a1 p2 =>
      simp only [isChain, Bool.and_eq_true] at hc
      have hlast : (a :: a1 :: p2).getLastD 0 = (a1 :: p2).getLastD 0 := by
        have := getLastD_irrel (a1 :: p2) (by simp) a 0
        simp [List.getLastD_cons, this]
      simp only [List.cons_append, isChain, Bool.and_eq_true]
      exact ⟨hc.1, ih n (by simp) hc.2 (by rwa [hlast] at he)⟩

theorem isChain_split_last (nbrs : Nat → List Nat) (costP : Nat → Nat → Option ℚ) :
    ∀ (A : List Nat) (t : Nat), A ≠ [] →
      isChain nbrs costP (A ++ [t]) = true →
      isEdge nbrs costP (A.getLastD 0) t = true ∧ isChain nbrs costP A = true := by
  intro A
  induction A with
  | nil => intro t h; exact absurd rfl h
  | cons a A1 ih =>
    intro t _ h
    cases A1 with
    | nil => simpa [isChain, Bool.and_eq_true] using h
    | cons a1 A2 =>
      simp only [List.cons_append, isChain, Bool.and_eq_true] at h
      have := ih t (by simp) h.2
      have hlast : (a :: a1 :: A2).getLastD 0 = (a1 :: A2).getLastD 0 := by
        have := getLastD_irrel (a1 :: A2) (by simp) a 0
        simp [List.getLastD_cons, this]
      refine ⟨by rw [hlast]; exact this.1, ?_⟩
      simp only [isChain, Bool.and_eq_true]
      exact ⟨h.1, this.2⟩

theorem heur_along (nbrs : Nat → List Nat) (costP : Nat → Nat → Option ℚ)
    (H : Nat → ℚ)
    (hcons : ∀ u v c, v ∈ nbrs u → costP u v = some c → H u ≤ c + H v) :
    ∀ l, isChain nbrs costP l = true → l ≠ [] →
      H (l.headD 0) ≤ pathCost costP l + H (l.getLastD 0) := by
  intro l
  induction l with
  | nil => intro _ h; exact absurd rfl h
  | cons a l1 ih =>
    intro hc _
    cases l1 with
    | nil => simp [pathCost]
    | cons b l2 =>
      simp only [isChain, Bool.and_eq_true] at hc
      have hedge := hc.1
      simp only [isEdge, Bool.and_eq_true, decide_eq_true_eq, Option.isSome_iff_exists] at hedge
      obtain ⟨hb, c, hcost⟩ := hedge
      have h1 : H a ≤ c + H b := hcons a b c hb hcost
      have h2 := ih hc.2 (by simp)
      have hlast : (a :: b :: l2).getLastD 0 = (b :: l2).getLastD 0 := by
        have := getLastD_irrel (b :: l2) (by simp) a 0
        simp [List.getLastD_cons, this]
      simp only [List.headD_cons] at h2 ⊢
      rw [hlast]
      calc H a ≤ c + H b := h1
        _ ≤ c + (pathCost costP (b :: l2) + H ((b :: l2).getLastD 0)) := by linarith
        _ = pathCost costP (a :: b :: l2) + H ((b :: l2).getLastD 0) := by
            simp [pathCost, hcost]; ring

theorem exists_first_not_mem {s : List Nat} :
    ∀ (l : List Nat) (z : Nat), l.getLast? = some z → z ∉ s →
      ∃ A t B, l = A ++ t :: B ∧ (∀ a ∈ A, a ∈ s) ∧ t ∉ s := by
  intro l
  induction l with
  | nil => intro z hz _; simp at hz
  | cons a l1 ih =>
    intro z hz hzs
    by_cases ha : a ∈ s
    · cases l1 with
      | nil =>
        simp only [List.getLast?_singleton, Option.some_inj] at hz
        exact absurd (hz ▸ ha) hzs
      | cons b l2 =>
        have hz2 : (b :: l2).getLast? = some z := by
          rwa [List.getLast?_cons_cons] at hz
        obtain ⟨A, t, B, hsplit, hall, ht⟩ := ih z hz2 hzs
        refine ⟨a :: A, t, B, by simp [hsplit], ?_, ht⟩
        intro x hx
        rcases List.mem_cons.mp hx with h1 | h1
        · exact h1 ▸ ha
        · exact hall x h1
    · exact ⟨[], a, l1, rfl, by simp, ha⟩

theorem head?_append_left {α : Type} (A X : List α) (h : A ≠ []) :
    (A ++ X).head? = A.head? := by
  cases A with
  | nil => exact absurd rfl h
  | cons a l => rfl

theorem getLast?_append_right {α : Type} (l1 : List α) :
    ∀ l2 : List α, l2 ≠ [] → (l1 ++ l2).getLast? = l2.getLast? :=
  fun l2 h2 => List.getLast?_append_of_ne_nil l1 h2

theorem getLast?_eq_getLastD {α : Type} (l : List α) (h : l ≠ []) (d : α) :
    l.getLast? = some (l.getLastD d) := by
  cases l with
  | nil => exact absurd rfl h
  | cons a t => simp [List.getLastD_eq_getLast?, List.getLast?_cons]

/-! ### Membership of the pushed entries -/

theorem mem_pushListP {costP : Nat → Nat → Option ℚ} {exp : List Nat} {t : Nat}
    {p : List Nat} {g : ℚ} {ns : List Nat} {e : SearchEntry} :
    e ∈ pushListP costP exp t p g ns ↔
      ∃ n, n ∈ ns ∧ n ∉ exp ∧
        ∃ c, costP t n = some c ∧ c ≠ 0 ∧ e = (p ++ [n], g + c) := by
  constructor
  · intro h
    obtain ⟨n, hn, hf⟩ := List.mem_filterMap.mp h
    by_cases hexp : n ∈ exp
    · simp [pushFnP, hexp] at hf
    · cases hc : costP t n with
      | none => simp [pushFnP, hexp, hc] at hf
      | some c =>
        by_cases hc0 : c = 0
        · simp [pushFnP, hexp, hc, hc0] at hf
        · refine ⟨n, hn, hexp, c, hc, hc0, ?_⟩
          simpa [pushFnP, hexp, hc, hc0] using hf.symm
  · rintro ⟨n, hn, hexp, c, hc, hc0, rfl⟩
    exact List.mem_filterMap.mpr ⟨n, hn, by simp [pushFnP, hexp, hc, hc0]⟩

/-! ### The covering lemma: any path to an unexpanded node has a frontier
entry sitting on it with a cost bounded by the corresponding prefix cost. -/

theorem inv_cover {nbrs : Nat → List Nat} {costP : Nat → Nat → Option ℚ}
    {start goal : Nat} {agenda : List SearchEntry} {expanded : List Nat}
    (hInv : SearchInv nbrs costP start goal agenda expanded) :
    ∀ Q z, isChain nbrs costP Q = true → Q.head? = some start →
      Q.getLast? = some z → z ∉ expanded →
      ∃ A t B, Q = A ++ t :: B ∧ t ∉ expanded ∧
        ∃ e ∈ agenda, e.1.getLastD 0 = t ∧ e.2 ≤ pathCost costP (A ++ [t]) := by
  intro Q z hQC hQh hQl hz
  obtain ⟨A, t, B, hsplit, hallA, ht⟩ := exists_first_not_mem Q z hQl hz
  subst hsplit
  rcases List.eq_nil_or_concat A with h0 | ⟨A0, x, hA0⟩
  · subst h0
    have hts : t = start := by simpa using hQh
    obtain ⟨e, he, hterm, hle⟩ := hInv.startCover (hts ▸ ht)
    refine ⟨[], t, B, rfl, ht, e, he, by rw [hterm, hts], ?_⟩
    simpa [pathCost] using hle
  · rw [List.concat_eq_append] at hA0
    subst hA0
    have hAne : A0 ++ [x] ≠ ([] : List Nat) := by simp
    have hx : x ∈ expanded := hallA x (by simp)
    have hsp := isChain_split nbrs costP (A0 ++ [x]) t B hQC
    have hsl := isChain_split_last nbrs costP (A0 ++ [x]) t hAne hsp.1
    have hxlast : (A0 ++ [x]).getLastD 0 = x := getLastD_append_single A0 x 0
    have hedge := hsl.1
    rw [hxlast] at hedge
    simp only [isEdge, Bool.and_eq_true, decide_eq_true_eq,
      Option.isSome_iff_exists] at hedge
    obtain ⟨hmem, c, hcost⟩ := hedge
    obtain ⟨e, he, hterm, hbound⟩ :=
      hInv.frontier x hx t hmem c hcost ht
    refine ⟨A0 ++ [x], t, B, rfl, ht, e, he, hterm, ?_⟩
    have hRh : (A0 ++ [x]).head? = some start := by
      have := head?_append_left (A0 ++ [x]) (t :: B) hAne
      rw [← this]
      simpa using hQh
    have hRl : (A0 ++ [x]).getLast? = some x := List.getLast?_concat _
    have hble := hbound (A0 ++ [x]) hsl.2 hRh hRl
    have hsnoc := pathCost_snoc costP (A0 ++ [x]) t hAne
    rw [hxlast, hcost] at hsnoc
    rw [hsnoc]
    simpa using hble

/-! ### Optimality of a popped unexpanded entry -/

theorem popped_opt {nbrs : Nat → List Nat} {costP : Nat → Nat → Option ℚ}
    {start goal : Nat} {agenda : List SearchEntry} {expanded : List Nat}
    {hP : Nat → ℚ} {heuristic : Bool}
    (hInv : SearchInv nbrs costP start goal agenda expanded)
    (hag : agenda ≠ [])
    (hcons : ∀ u v c, v ∈ nbrs u → costP u v = some c →
      heurOf hP heuristic u ≤ c + heurOf hP heuristic v)
    (hne : (agenda.getD (popIdx hP heuristic agenda) ([], 0)).1.getLastD 0 ∉ expanded) :
    ∀ R, isChain nbrs costP R = true → R.head? = some start →
      R.getLast? = some ((agenda.getD (popIdx hP heuristic agenda) ([], 0)).1.getLastD 0) →
      (agenda.getD (popIdx hP heuristic agenda) ([], 0)).2 ≤ pathCost costP R := by
  intro R hRC hRh hRl
  obtain ⟨A, t, B, hsplit, ht, e, he, hterm, hble⟩ :=
    inv_cover hInv R _ hRC hRh hRl hne
  have hprio : ∀ x : SearchEntry,
      prioP hP heuristic x = x.2 + heurOf hP heuristic (x.1.getLastD 0) := by
    intro x; cases heuristic <;> simp [prioP, heurOf]
  have hmin := popIdx_min hP heuristic agenda hag e he
  rw [hprio, hprio, hterm] at hmin
  have hchain2 := (isChain_split nbrs costP A t B (hsplit ▸ hRC)).2
  have hlast2 : (t :: B).getLast? =
      some ((agenda.getD (popIdx hP heuristic agenda) ([], 0)).1.getLastD 0) := by
    rw [← hRl, hsplit]
    exact (getLast?_append_right A (t :: B) (by simp)).symm
  have hlastD : (t :: B).getLastD 0 =
      (agenda.getD (popIdx hP heuristic agenda) ([], 0)).1.getLastD 0 := by
    have := getLast?_eq_getLastD (t :: B) (by simp) 0
    rw [this] at hlast2
    exact Option.some_inj.mp hlast2
  have hHt := heur_along nbrs costP (heurOf hP heuristic) hcons (t :: B)
    hchain2 (by simp)
  rw [hlastD] at hHt
  simp only [List.headD_cons] at hHt
  have hsplitCost := pathCost_split costP A t B
  rw [← hsplit] at hsplitCost
  linarith

/-! ### Preservation of the search invariant -/

theorem searchLoopP_succ_cons (nbrs : Nat → List Nat) (costP : Nat → Nat → Option ℚ)
    (hP : Nat → ℚ) (heuristic : Bool) (goal fuel : Nat) (e : SearchEntry)
    (es : List SearchEntry) (expanded : List Nat) :
    searchLoopP nbrs costP hP heuristic goal (fuel + 1) (e :: es) expanded =
      if ((e :: es).getD (popIdx hP heuristic (e :: es)) ([], 0)).1.getLastD 0 ∈ expanded then
        searchLoopP nbrs costP hP heuristic goal fuel
          ((e :: es).eraseIdx (popIdx hP heuristic (e :: es))) expanded
      else if ((e :: es).getD (popIdx hP heuristic (e :: es)) ([], 0)).1.getLastD 0 = goal then
        some (some ((e :: es).getD (popIdx hP heuristic (e :: es)) ([], 0)).1)
      else
        searchLoopP nbrs costP hP heuristic goal fuel
          ((e :: es).eraseIdx (popIdx hP heuristic (e :: es)) ++
            pushListP costP
              (expanded ++ [((e :: es).getD (popIdx hP heuristic (e :: es)) ([], 0)).1.getLastD 0])
              (((e :: es).getD (popIdx hP heuristic (e :: es)) ([], 0)).1.getLastD 0)
              ((e :: es).getD (popIdx hP heuristic (e :: es)) ([], 0)).1
              ((e :: es).getD (popIdx hP heuristic (e :: es)) ([], 0)).2
              (nbrs (((e :: es).getD (popIdx hP heuristic (e :: es)) ([], 0)).1.getLastD 0)))
          (expanded ++ [((e :: es).getD (popIdx hP heuristic (e :: es)) ([], 0)).1.getLastD 0]) :=
  rfl

theorem inv_erase {nbrs : Nat → List Nat} {costP : Nat → Nat → Option ℚ}
    {start goal : Nat} {agenda : List SearchEntry} {expanded : List Nat}
    (hInv : SearchInv nbrs costP start goal agenda expanded) (i : Nat)
    (hterm : (agenda.getD i ([], 0)).1.getLastD 0 ∈ expanded) :
    SearchInv nbrs costP start goal (agenda.eraseIdx i) expanded := by
  constructor
  · intro e he; exact hInv.sound e (mem_of_mem_eraseIdx he)
  · exact hInv.goalFree
  · intro hs
    obtain ⟨e, he, h1, h2⟩ := hInv.startCover hs
    have hneq : e ≠ agenda.getD i ([], 0) := by
      intro hcontra
      rw [hcontra] at h1
      rw [h1] at hterm
      exact hs hterm
    exact ⟨e, mem_eraseIdx_of_ne he hneq, h1, h2⟩
  · intro x hx n hn c hc hnx
    obtain ⟨e, he, h1, h2⟩ := hInv.frontier x hx n hn c hc hnx
    have hneq : e ≠ agenda.getD i ([], 0) := by
      intro hcontra
      rw [hcontra] at h1
      rw [h1] at hterm
      exact hnx hterm
    exact ⟨e, mem_eraseIdx_of_ne he hneq, h1, h2⟩

theorem inv_expand {nbrs : Nat → List Nat} {costP : Nat → Nat → Option ℚ}
    {start goal : Nat} {agenda : List SearchEntry} {expanded : List Nat}
    {hP : Nat → ℚ} {heuristic : Bool}
    (hInv : SearchInv nbrs costP start goal agenda expanded)
    (hag : agenda ≠ [])
    (hpos : ∀ u v c, v ∈ nbrs u → costP u v = some c → 0 < c)
    (hcons : ∀ u v c, v ∈ nbrs u → costP u v = some c →
      heurOf hP heuristic u ≤ c + heurOf hP heuristic v)
    (hne : (agenda.getD (popIdx hP heuristic agenda) ([], 0)).1.getLastD 0 ∉ expanded)
    (hng : (agenda.getD (popIdx hP heuristic agenda) ([], 0)).1.getLastD 0 ≠ goal) :
    SearchInv nbrs costP start goal
      (agenda.eraseIdx (popIdx hP heuristic agenda) ++
        pushListP costP
          (expanded ++ [(agenda.getD (popIdx hP heuristic agenda) ([], 0)).1.getLastD 0])
          ((agenda.getD (popIdx hP heuristic agenda) ([], 0)).1.getLastD 0)
          (agenda.getD (popIdx hP heuristic agenda) ([], 0)).1
          (agenda.getD (popIdx hP heuristic agenda) ([], 0)).2
          (nbrs ((agenda.getD (popIdx hP heuristic agenda) ([], 0)).1.getLastD 0)))
      (expanded ++ [(agenda.getD (popIdx hP heuristic agenda) ([], 0)).1.getLastD 0]) := by
  have hlt := popIdx_lt hP heuristic agenda hag
  set idx := popIdx hP heuristic agenda with hidx
  set pe := agenda.getD idx ([], 0) with hpedef
  have hpemem : pe ∈ agenda := getD_mem agenda idx ([], 0) hlt
  obtain ⟨hpne, hphead, hpchain, hpcost⟩ := hInv.sound pe hpemem
  constructor
  · intro e he
    rcases List.mem_append.mp he with h1 | h1
    · exact hInv.sound e (mem_of_mem_eraseIdx h1)
    · obtain ⟨n, hn, hnexp, c, hc, hc0, rfl⟩ := mem_pushListP.mp h1
      refine ⟨by simp, ?_, ?_, ?_⟩
      · show (pe.1 ++ [n]).head? = some start
        rw [head?_append_left pe.1 [n] hpne]; exact hphead
      · refine isChain_snoc nbrs costP pe.1 n hpne hpchain ?_
        simp only [isEdge, hc, Option.isSome_some, Bool.and_true, decide_eq_true_eq]
        exact hn
      · show pathCost costP (pe.1 ++ [n]) = pe.2 + c
        rw [pathCost_snoc costP pe.1 n hpne, hpcost, hc]
        simp
  · intro hcontra
    rcases List.mem_append.mp hcontra with h | h
    · exact hInv.goalFree h
    · exact hng (List.mem_singleton.mp h).symm
  · intro hs
    have hs1 : start ∉ expanded := fun h => hs (List.mem_append.mpr (Or.inl h))
    have hst : pe.1.getLastD 0 ≠ start := by
      intro h
      apply hs
      apply List.mem_append.mpr
      right
      rw [← h]
      exact List.mem_singleton_self _
    obtain ⟨e, he, h1, h2⟩ := hInv.startCover hs1
    have hneq : e ≠ agenda.getD idx ([], 0) := by
      intro hcontra
      rw [hcontra] at h1
      exact hst h1
    exact ⟨e, List.mem_append.mpr (Or.inl (mem_eraseIdx_of_ne he hneq)), h1, h2⟩
  · intro x hx n hn c hc hnexp
    have hnt : n ≠ pe.1.getLastD 0 := by
      intro h
      apply hnexp
      apply List.mem_append.mpr
      right
      rw [h]
      exact List.mem_singleton_self _
    have hnexp1 : n ∉ expanded := fun h => hnexp (List.mem_append.mpr (Or.inl h))
    rcases List.mem_append.mp hx with hx1 | hx1
    · obtain ⟨e, he, h1, h2⟩ := hInv.frontier x hx1 n hn c hc hnexp1
      have hneq : e ≠ agenda.getD idx ([], 0) := by
        intro hcontra
        rw [hcontra] at h1
        exact hnt h1.symm
      exact ⟨e, List.mem_append.mpr (Or.inl (mem_eraseIdx_of_ne he hneq)), h1, h2⟩
    · have hxt : x = pe.1.getLastD 0 := List.mem_singleton.mp hx1
      subst hxt
      refine ⟨(pe.1 ++ [n], pe.2 + c), List.mem_append.mpr (Or.inr ?_), ?_, ?_⟩
      · exact mem_pushListP.mpr ⟨n, hn, hnexp, c, hc, ne_of_gt (hpos _ n c hn hc), rfl⟩
      · exact getLastD_append_single pe.1 n 0
      · intro R hRC hRh hRl
        have hopt := popped_opt hInv hag hcons hne R hRC hRh hRl
        show pe.2 + c ≤ pathCost costP R + c
        linarith

/-! ### The main optimality theorem for the pure search loop -/

theorem searchLoopP_opt (nbrs : Nat → List Nat) (costP : Nat → Nat → Option ℚ)
    (hP : Nat → ℚ) (heuristic : Bool) (start goal : Nat)
    (hpos : ∀ u v c, v ∈ nbrs u → costP u v = some c → 0 < c)
    (hcons : ∀ u v c, v ∈ nbrs u → costP u v = some c →
      heurOf hP heuristic u ≤ c + heurOf hP heuristic v) :
    ∀ (fuel : Nat) (agenda : List SearchEntry) (expanded : List Nat) (p : List Nat),
      SearchInv nbrs costP start goal agenda expanded →
      searchLoopP nbrs costP hP heuristic goal fuel agenda expanded = some (some p) →
      p.head? = some start ∧ p.getLast? = some goal ∧ isChain nbrs costP p = true ∧
      ∀ Q, isChain nbrs costP Q = true → Q.head? = some start →
        Q.getLast? = some goal → pathCost costP p ≤ pathCost costP Q := by
  intro fuel
  induction fuel with
  | zero => intro agenda expanded p _ hrun; simp [searchLoopP] at hrun
  | succ fuel ih =>
    intro agenda expanded p hInv hrun
    cases agenda with
    | nil => simp [searchLoopP] at hrun
    | cons e es =>
      rw [searchLoopP_succ_cons] at hrun
      by_cases hexp :
          ((e :: es).getD (popIdx hP heuristic (e :: es)) ([], 0)).1.getLastD 0 ∈ expanded
      · rw [if_pos hexp] at hrun
        exact ih _ _ p (inv_erase hInv (popIdx hP heuristic (e :: es)) hexp) hrun
      · rw [if_neg hexp] at hrun
        by_cases hg :
            ((e :: es).getD (popIdx hP heuristic (e :: es)) ([], 0)).1.getLastD 0 = goal
        · rw [if_pos hg] at hrun
          have hp : ((e :: es).getD (popIdx hP heuristic (e :: es)) ([], 0)).1 = p := by
            simpa using hrun
          have hpemem : (e :: es).getD (popIdx hP heuristic (e :: es)) ([], 0) ∈ e :: es :=
            getD_mem _ _ ([], 0) (popIdx_lt hP heuristic _ (by simp))
          obtain ⟨hpne, hphead, hpchain, hpcost⟩ := hInv.sound _ hpemem
          subst hp
          refine ⟨hphead, ?_, hpchain, ?_⟩
          · rw [getLast?_eq_getLastD _ hpne 0, hg]
          · intro Q hQC hQh hQl
            have hopt := popped_opt hInv (by simp) hcons hexp Q hQC hQh (by rw [hg]; exact hQl)
            rw [← hpcost] at hopt
            exact hopt
        · rw [if_neg hg] at hrun
          exact ih _ _ p (inv_expand hInv (by simp) hpos hcons hexp hg) hrun

/-! ### Bridging the engine with raising cost/heuristic to the pure loop -/

theorem mapE_ok {α β : Type} (f : α → Except Unit β) (g : α → β)
    (h : ∀ a, f a = Except.ok (g a)) :
    ∀ l : List α, mapE f l = Except.ok (l.map g) := by
  intro l
  induction l with
  | nil => rfl
  | cons a as ih => simp [mapE, h a, ih]

theorem filterMapE_ok {α β : Type} (f : α → Except Unit (Option β))
    (g : α → Option β) (h : ∀ a, f a = Except.ok (g a)) :
    ∀ l : List α, filterMapE f l = Except.ok (l.filterMap g) := by
  intro l
  induction l with
  | nil => rfl
  | cons a as ih =>
    cases hg : g a with
    | none => simp [filterMapE, h a, hg, ih, List.filterMap_cons]
    | some b => simp [filterMapE, h a, hg, ih, List.filterMap_cons]

theorem priorityM_ok (hfun : Nat → Except Unit ℚ) (hP : Nat → ℚ) (heuristic : Bool)
    (hh : heuristic = true → ∀ n, hfun n = Except.ok (hP n)) (e : SearchEntry) :
    priorityM hfun heuristic e = Except.ok (prioP hP heuristic e) := by
  cases heuristic with
  | false => rfl
  | true =>
    have h1 := hh rfl (e.1.getLastD 0)
    simp only [priorityM, prioP, if_true, h1]

theorem pushFnM_ok (cost : Nat → Nat → Except Unit (Option ℚ))
    (costP : Nat → Nat → Option ℚ)
    (hc : ∀ u v, cost u v = Except.ok (costP u v)) (exp : List Nat) (t : Nat)
    (p : List Nat) (g : ℚ) (n : Nat) :
    pushFnM cost exp t p g n = Except.ok (pushFnP costP exp t p g n) := by
  by_cases hexp : n ∈ exp
  · simp [pushFnM, pushFnP, hexp]
  · cases hcv : costP t n with
    | none => simp [pushFnM, pushFnP, hexp, hc t n, hcv]
    | some c =>
      by_cases hc0 : c = 0
      · simp [pushFnM, pushFnP, hexp, hc t n, hcv, hc0]
      · simp [pushFnM, pushFnP, hexp, hc t n, hcv, hc0]

theorem searchLoopM_ok (nbrs : Nat → List Nat)
    (cost : Nat → Nat → Except Unit (Option ℚ)) (costP : Nat → Nat → Option ℚ)
    (hfun : Nat → Except Unit ℚ) (hP : Nat → ℚ) (heuristic : Bool) (goal : Nat)
    (hc : ∀ u v, cost u v = Except.ok (costP u v))
    (hh : heuristic = true → ∀ n, hfun n = Except.ok (hP n)) :
    ∀ (fuel : Nat) (agenda : List SearchEntry) (expanded : List Nat),
      searchLoopM nbrs cost hfun heuristic goal fuel agenda expanded =
        (searchLoopP nbrs costP hP heuristic goal fuel agenda expanded).map Except.ok := by
  intro fuel
  induction fuel with
  | zero => intro agenda expanded; rfl
  | succ fuel ih =>
    intro agenda expanded
    cases agenda with
    | nil => rfl
    | cons e es =>
      have hmap := mapE_ok (priorityM hfun heuristic) (prioP hP heuristic)
        (priorityM_ok hfun hP heuristic hh) (e :: es)
      have hpush := filterMapE_ok
        (pushFnM cost
          (expanded ++ [((e :: es).getD (popIdx hP heuristic (e :: es)) ([], 0)).1.getLastD 0])
          (((e :: es).getD (popIdx hP heuristic (e :: es)) ([], 0)).1.getLastD 0)
          ((e :: es).getD (popIdx hP heuristic (e :: es)) ([], 0)).1
          ((e :: es).getD (popIdx hP heuristic (e :: es)) ([], 0)).2)
        (pushFnP costP
          (expanded ++ [((e :: es).getD (popIdx hP heuristic (e :: es)) ([], 0)).1.getLastD 0])
          (((e :: es).getD (popIdx hP heuristic (e :: es)) ([], 0)).1.getLastD 0)
          ((e :: es).getD (popIdx hP heuristic (e :: es)) ([], 0)).1
          ((e :: es).getD (popIdx hP heuristic (e :: es)) ([], 0)).2)
        (pushFnM_ok cost costP hc _ _ _ _)
        (nbrs (((e :: es).getD (popIdx hP heuristic (e :: es)) ([], 0)).1.getLastD 0))
      rw [searchLoopP_succ_cons]
      simp only [searchLoopM, hmap]
      simp only [popIdx] at *
      by_cases hexp :
          ((e :: es).getD (scanMinIdx ((e :: es).map (prioP hP heuristic))) ([], 0)).1.getLastD 0
            ∈ expanded
      · simp only [if_pos hexp, ih]
      · by_cases hg :
            ((e :: es).getD (scanMinIdx ((e :: es).map (prioP hP heuristic))) ([], 0)).1.getLastD 0
              = goal
        · simp only [if_neg hexp, if_pos hg]
          rfl
        · simp only [if_neg hexp, if_neg hg, hpush, ih, pushListP]

/-! ### The engine ignores zero-cost edges: equivalence with the pruned cost -/

theorem truthy_some {costP : Nat → Nat → Option ℚ} {a b : Nat} {c : ℚ}
    (h : truthyCost costP a b = some c) : costP a b = some c ∧ c ≠ 0 := by
  unfold truthyCost at h
  cases hc : costP a b with
  | none => rw [hc] at h; cases h
  | some c1 =>
    rw [hc] at h
    by_cases h0 : c1 = 0
    · simp [h0] at h
    · simp only [h0, if_false, ite_false, if_neg, Option.some_inj] at h
      subst h
      exact ⟨rfl, h0⟩

theorem pushFnP_truthy (costP : Nat → Nat → Option ℚ) (exp : List Nat) (t : Nat)
    (p : List Nat) (g : ℚ) (n : Nat) :
    pushFnP (truthyCost costP) exp t p g n = pushFnP costP exp t p g n := by
  by_cases hexp : n ∈ exp
  · simp [pushFnP, hexp]
  · cases hcv : costP t n with
    | none => simp [pushFnP, truthyCost, hexp, hcv]
    | some c =>
      by_cases hc0 : c = 0
      · simp [pushFnP, truthyCost, hexp, hcv, hc0]
      · simp [pushFnP, truthyCost, hexp, hcv, hc0]

theorem searchLoopP_truthy (nbrs : Nat → List Nat) (costP : Nat → Nat → Option ℚ)
    (hP : Nat → ℚ) (heuristic : Bool) (goal : Nat) :
    ∀ (fuel : Nat) (agenda : List SearchEntry) (expanded : List Nat),
      searchLoopP nbrs (truthyCost costP) hP heuristic goal fuel agenda expanded =
        searchLoopP nbrs costP hP heuristic goal fuel agenda expanded := by
  intro fuel
  induction fuel with
  | zero => intro _ _; rfl
  | succ fuel ih =>
    intro agenda expanded
    cases agenda with
    | nil => rfl
    | cons e es =>
      rw [searchLoopP_succ_cons, searchLoopP_succ_cons]
      have hfn : pushFnP (truthyCost costP)
          (expanded ++ [((e :: es).getD (popIdx hP heuristic (e :: es)) ([], 0)).1.getLastD 0])
          (((e :: es).getD (popIdx hP heuristic (e :: es)) ([], 0)).1.getLastD 0)
          ((e :: es).getD (popIdx hP heuristic (e :: es)) ([], 0)).1
          ((e :: es).getD (popIdx hP heuristic (e :: es)) ([], 0)).2 =
        pushFnP costP
          (expanded ++ [((e :: es).getD (popIdx hP heuristic (e :: es)) ([], 0)).1.getLastD 0])
          (((e :: es).getD (popIdx hP heuristic (e :: es)) ([], 0)).1.getLastD 0)
          ((e :: es).getD (popIdx hP heuristic (e :: es)) ([], 0)).1
          ((e :: es).getD (popIdx hP heuristic (e :: es)) ([], 0)).2 :=
        funext (pushFnP_truthy costP _ _ _ _)
      by_cases hexp :
          ((e :: es).getD (popIdx hP heuristic (e :: es)) ([], 0)).1.getLastD 0 ∈ expanded
      · rw [if_pos hexp, if_pos hexp, ih]
      · rw [if_neg hexp, if_neg hexp]
        by_cases hg :
            ((e :: es).getD (popIdx hP heuristic (e :: es)) ([], 0)).1.getLastD 0 = goal
        · rw [if_pos hg, if_pos hg]
        · rw [if_neg hg, if_neg hg]
          simp only [pushListP, hfn, ih]

theorem pathCost_truthy (nbrs : Nat → List Nat) (costP : Nat → Nat → Option ℚ) :
    ∀ l, isChain nbrs (truthyCost costP) l = true →
      pathCost (truthyCost costP) l = pathCost costP l := by
  intro l
  induction l with
  | nil => intro _; rfl
  | cons a l1 ih =>
    intro hc
    cases l1 with
    | nil => rfl
    | cons b l2 =>
      simp only [isChain, Bool.and_eq_true] at hc
      have hedge := hc.1
      simp only [isEdge, Bool.and_eq_true, Option.isSome_iff_exists] at hedge
      obtain ⟨_, c, hcost⟩ := hedge
      obtain ⟨hcp, _⟩ := truthy_some hcost
      show (truthyCost costP a b).getD 0 + pathCost (truthyCost costP) (b :: l2) =
        (costP a b).getD 0 + pathCost costP (b :: l2)
      rw [hcost, hcp, ih hc.2]

/-! ### Top-level optimality: any returned path is a cheapest start-goal path
over the edges the engine can traverse -/

theorem engine_optimal (nbrs : Nat → List Nat)
    (cost : Nat → Nat → Except Unit (Option ℚ)) (costP : Nat → Nat → Option ℚ)
    (hfun : Nat → Except Unit ℚ) (hP : Nat → ℚ) (heuristic : Bool)
    (start goal : Nat) (fuel : Nat) (p : List Nat)
    (hc : ∀ u v, cost u v = Except.ok (costP u v))
    (hh : heuristic = true → ∀ n, hfun n = Except.ok (hP n))
    (hnn : ∀ u v c, v ∈ nbrs u → costP u v = some c → 0 ≤ c)
    (hcons : ∀ u v c, v ∈ nbrs u → costP u v = some c →
      heurOf hP heuristic u ≤ c + heurOf hP heuristic v)
    (hrun : searchLoopM nbrs cost hfun heuristic goal fuel [([start], 0)] [] =
      some (Except.ok (some p))) :
    p.head? = some start ∧ p.getLast? = some goal ∧
    isChain nbrs (truthyCost costP) p = true ∧
    ∀ Q, isChain nbrs (truthyCost costP) Q = true → Q.head? = some start →
      Q.getLast? = some goal → pathCost costP p ≤ pathCost costP Q := by
  rw [searchLoopM_ok nbrs cost costP hfun hP heuristic goal hc hh] at hrun
  have hrunP : searchLoopP nbrs costP hP heuristic goal fuel [([start], 0)] [] =
      some (some p) := by
    cases hx : searchLoopP nbrs costP hP heuristic goal fuel [([start], 0)] [] with
    | none => rw [hx] at hrun; cases hrun
    | some r =>
      rw [hx] at hrun
      cases r with
      | none => cases hrun
      | some q => simpa using hrun
  rw [← searchLoopP_truthy nbrs costP hP heuristic goal] at hrunP
  have hInv0 : SearchInv nbrs (truthyCost costP) start goal [([start], 0)] [] := by
    constructor
    · intro e he
      have he1 : e = ([start], 0) := by simpa using he
      subst he1
      exact ⟨by simp, by simp, rfl, rfl⟩
    · simp
    · intro _
      exact ⟨([start], 0), by simp, by simp, le_refl 0⟩
    · intro x hx; simp at hx
  have hpos : ∀ u v c, v ∈ nbrs u → truthyCost costP u v = some c → 0 < c := by
    intro u v c hm hcv
    obtain ⟨hcp, hc0⟩ := truthy_some hcv
    exact lt_of_le_of_ne (hnn u v c hm hcp) (Ne.symm hc0)
  have hconsT : ∀ u v c, v ∈ nbrs u → truthyCost costP u v = some c →
      heurOf hP heuristic u ≤ c + heurOf hP heuristic v := by
    intro u v c hm hcv
    exact hcons u v c hm (truthy_some hcv).1
  obtain ⟨h1, h2, h3, h4⟩ :=
    searchLoopP_opt nbrs (truthyCost costP) hP heuristic start goal hpos hconsT
      fuel [([start], 0)] [] p hInv0 hrunP
  refine ⟨h1, h2, h3, ?_⟩
  intro Q hQC hQh hQl
  have := h4 Q hQC hQh hQl
  rwa [pathCost_truthy nbrs costP p h3, pathCost_truthy nbrs costP Q hQC] at this

/-! ### Termination: enough fuel for any finite closed node universe -/

theorem pushListP_length_le (costP : Nat → Nat → Option ℚ) (exp : List Nat)
    (t : Nat) (p : List Nat) (g : ℚ) (ns : List Nat) :
    (pushListP costP exp t p g ns).length ≤ ns.length :=
  List.length_filterMap_le _ _

theorem searchLoopP_total (nbrs : Nat → List Nat) (costP : Nat → Nat → Option ℚ)
    (hP : Nat → ℚ) (heuristic : Bool) (goal : Nat) (V : Finset ℕ)
    (hcl : ∀ v ∈ V, ∀ n ∈ nbrs v, n ∈ V) :
    ∀ (fuel : Nat) (agenda : List SearchEntry) (expanded : List Nat),
      (∀ e ∈ agenda, e.1.getLastD 0 ∈ V) →
      (∑ v in V.filter (fun v => v ∉ expanded), (nbrs v).length) + agenda.length < fuel →
      ∃ r, searchLoopP nbrs costP hP heuristic goal fuel agenda expanded = some r := by
  intro fuel
  induction fuel with
  | zero => intro agenda expanded _ hm; omega
  | succ fuel ih =>
    intro agenda expanded hterm hm
    cases agenda with
    | nil => exact ⟨none, rfl⟩
    | cons e es =>
      rw [searchLoopP_succ_cons]
      have hlt : popIdx hP heuristic (e :: es) < (e :: es).length :=
        popIdx_lt hP heuristic _ (by simp)
      have hlen : ((e :: es).eraseIdx (popIdx hP heuristic (e :: es))).length + 1 =
          (e :: es).length :=
        List.length_eraseIdx_add_one hlt
      have hsub : ∀ x ∈ (e :: es).eraseIdx (popIdx hP heuristic (e :: es)), x ∈ e :: es :=
        fun x hx => mem_of_mem_eraseIdx hx
      by_cases hexp :
          ((e :: es).getD (popIdx hP heuristic (e :: es)) ([], 0)).1.getLastD 0 ∈ expanded
      · rw [if_pos hexp]
        apply ih _ expanded (fun x hx => hterm x (hsub x hx))
        simp only [List.length_cons] at hm hlen
        omega
      · rw [if_neg hexp]
        by_cases hg :
            ((e :: es).getD (popIdx hP heuristic (e :: es)) ([], 0)).1.getLastD 0 = goal
        · rw [if_pos hg]; exact ⟨_, rfl⟩
        · rw [if_neg hg]
          have htV : ((e :: es).getD (popIdx hP heuristic (e :: es)) ([], 0)).1.getLastD 0 ∈ V :=
            hterm _ (getD_mem _ (popIdx hP heuristic (e :: es)) ([], 0) hlt)
          have htfilter :
              ((e :: es).getD (popIdx hP heuristic (e :: es)) ([], 0)).1.getLastD 0 ∈
                V.filter (fun v => v ∉ expanded) :=
            Finset.mem_filter.mpr ⟨htV, hexp⟩
          have hsum := Finset.sum_erase_add (V.filter (fun v => v ∉ expanded))
            (fun v => (nbrs v).length) htfilter
          have hfiltereq : V.filter (fun v => v ∉
                (expanded ++ [((e :: es).getD (popIdx hP heuristic (e :: es)) ([], 0)).1.getLastD 0])) =
              (V.filter (fun v => v ∉ expanded)).erase
                (((e :: es).getD (popIdx hP heuristic (e :: es)) ([], 0)).1.getLastD 0) := by
            ext v
            simp only [Finset.mem_filter, Finset.mem_erase, List.mem_append,
              List.mem_singleton]
            constructor
            · intro hv
              push_neg at hv
              exact ⟨hv.2.2, hv.1, hv.2.1⟩
            · intro hv
              refine ⟨hv.2.1, ?_⟩
              push_neg
              exact ⟨hv.2.2, hv.1⟩
          apply ih _ _ ?_ ?_
          · intro x hx
            rcases List.mem_append.mp hx with h1 | h1
            · exact hterm x (hsub x h1)
            · obtain ⟨n, hn, _, c, _, _, rfl⟩ := mem_pushListP.mp h1
              show (((e :: es).getD (popIdx hP heuristic (e :: es)) ([], 0)).1 ++ [n]).getLastD 0 ∈ V
              rw [getLastD_append_single]
              exact hcl _ htV n hn
          · rw [hfiltereq]
            have hpl := pushListP_length_le costP
              (expanded ++ [((e :: es).getD (popIdx hP heuristic (e :: es)) ([], 0)).1.getLastD 0])
              (((e :: es).getD (popIdx hP heuristic (e :: es)) ([], 0)).1.getLastD 0)
              ((e :: es).getD (popIdx hP heuristic (e :: es)) ([], 0)).1
              ((e :: es).getD (popIdx hP heuristic (e :: es)) ([], 0)).2
              (nbrs (((e :: es).getD (popIdx hP heuristic (e :: es)) ([], 0)).1.getLastD 0))
            have hsum2 :
                (∑ v in (V.filter (fun v => v ∉ expanded)).erase
                    (((e :: es).getD (popIdx hP heuristic (e :: es)) ([], 0)).1.getLastD 0),
                  (nbrs v).length) +
                  (nbrs (((e :: es).getD (popIdx hP heuristic (e :: es)) ([], 0)).1.getLastD 0)).length =
                ∑ v in V.filter (fun v => v ∉ expanded), (nbrs v).length := hsum
            rw [List.length_append]
            simp only [List.length_cons] at hm hlen
            omega

theorem engine_terminates (nbrs : Nat → List Nat)
    (cost : Nat → Nat → Except Unit (Option ℚ)) (costP : Nat → Nat → Option ℚ)
    (hfun : Nat → Except Unit ℚ) (hP : Nat → ℚ) (heuristic : Bool)
    (start goal : Nat) (V : Finset ℕ)
    (hc : ∀ u v, cost u v = Except.ok (costP u v))
    (hh : heuristic = true → ∀ n, hfun n = Except.ok (hP n))
    (hstart : start ∈ V)
    (hcl : ∀ v ∈ V, ∀ n ∈ nbrs v, n ∈ V) :
    ∃ r : Option (List Nat),
      searchLoopM nbrs cost hfun heuristic goal
        ((∑ v in V, (nbrs v).length) + 2) [([start], 0)] [] =
        some (Except.ok r) := by
  obtain ⟨r, hr⟩ := searchLoopP_total nbrs costP hP heuristic goal V hcl
    ((∑ v in V, (nbrs v).length) + 2) [([start], 0)] []
    (by
      intro e he
      have he1 : e = ([start], 0) := by simpa using he
      subst he1
      simpa using hstart)
    (by
      have hfe : V.filter (fun v => v ∉ ([] : List Nat)) = V := by
        ext v; simp
      rw [hfe]
      simp)
  refine ⟨r, ?_⟩
  rw [searchLoopM_ok nbrs cost costP hfun hP heuristic goal hc hh, hr]
  rfl

/-! ### Dictionary lemmas -/

theorem dlookup_dinsert {α β : Type} [DecidableEq α] :
    ∀ (d : List (α × β)) (k : α) (v : β) (k1 : α),
      dlookup (dinsert d k v) k1 = if k = k1 then some v else dlookup d k1 := by
  intro d k v
  induction d with
  | nil =>
    intro k1
    by_cases h1 : k = k1 <;> simp [dinsert, dlookup, h1]
  | cons p rest ih =>
    intro k1
    obtain ⟨k0, v0⟩ := p
    by_cases hk : k0 = k
    · subst hk
      by_cases h1 : k0 = k1 <;> simp [dinsert, dlookup, h1]
    · by_cases h1 : k0 = k1
      · subst h1
        have hne : ¬ k = k0 := fun h => hk h.symm
        simp [dinsert, dlookup, hk, hne]
      · simp [dinsert, dlookup, hk, h1, ih k1]

theorem dlookup_append_single {α β : Type} [DecidableEq α] :
    ∀ (d : List (α × β)) (k : α) (v : β) (k1 : α),
      dlookup (d ++ [(k, v)]) k1 =
        match dlookup d k1 with
        | some x => some x
        | none => if k = k1 then some v else none := by
  intro d k v
  induction d with
  | nil =>
    intro k1
    by_cases h1 : k = k1 <;> simp [dlookup, h1]
  | cons p rest ih =>
    intro k1
    obtain ⟨k0, v0⟩ := p
    by_cases h1 : k0 = k1 <;> simp [dlookup, h1, ih k1]

theorem mem_dinsert {α β : Type} [DecidableEq α] :
    ∀ (d : List (α × β)) (k : α) (v : β) (p : α × β),
      p ∈ dinsert d k v → p = (k, v) ∨ p ∈ d := by
  intro d k v
  induction d with
  | nil => intro p hp; simp [dinsert] at hp; exact Or.inl hp
  | cons q rest ih =>
    intro p hp
    obtain ⟨k0, v0⟩ := q
    by_cases hk : k0 = k
    · subst hk
      simp only [dinsert, if_pos rfl] at hp
      rcases List.mem_cons.mp hp with h | h
      · exact Or.inl h
      · exact Or.inr (List.mem_cons_of_mem _ h)
    · simp only [dinsert, if_neg hk] at hp
      rcases List.mem_cons.mp hp with h | h
      · exact Or.inr (h ▸ List.mem_cons_self _ _)
      · rcases ih p h with h2 | h2
        · exact Or.inl h2
        · exact Or.inr (List.mem_cons_of_mem _ h2)

theorem dlookup_mem {α β : Type} [DecidableEq α] :
    ∀ (d : List (α × β)) (k : α) (v : β), dlookup d k = some v → (k, v) ∈ d := by
  intro d k v
  induction d with
  | nil => intro h; cases h
  | cons q rest ih =>
    intro h
    obtain ⟨k0, v0⟩ := q
    by_cases h1 : k0 = k
    · subst h1
      simp [dlookup] at h
      subst h
      exact List.mem_cons_self _ _
    · simp only [dlookup, if_neg h1] at h
      exact List.mem_cons_of_mem _ (ih h)

/-! ### What one edge-recording step does to the edge weights -/

theorem edgeWeightOf_addEdge (entries : List (Nat × NodeEntry)) (a b : Nat)
    (s : ℚ) (x y : Nat) :
    edgeWeightOf (addEdge entries a b s) x y =
      if a = x ∧ b = y then some s else edgeWeightOf entries x y := by
  unfold addEdge
  cases he : dlookup entries a with
  | some e =>
    unfold edgeWeightOf
    rw [dlookup_dinsert]
    by_cases hax : a = x
    · subst hax
      rw [if_pos rfl, he]
      by_cases hby : b = y
      · subst hby
        simp [dlookup_dinsert]
      · simp [dlookup_dinsert, hby]
    · rw [if_neg hax, if_neg (fun h => hax h.1)]
  | none =>
    unfold edgeWeightOf
    rw [dlookup_append_single]
    cases hx : dlookup entries x with
    | some e0 =>
      have hax : ¬ a = x := by
        intro h
        rw [h, hx] at he
        cases he
      simp only [if_neg (fun h => hax (h : a = x ∧ b = y).1)]
    | none =>
      by_cases hax : a = x
      · subst hax
        simp only [if_pos rfl]
        by_cases hby : b = y
        · subst hby; simp [dlookup]
        · simp [dlookup, hby]
      · simp [hax]

theorem pairsOf_nil : pairsOf [] = [] := rfl

theorem pairsOf_single (a : Nat) : pairsOf [a] = [] := rfl

theorem pairsOf_cons_cons (a b : Nat) (l : List Nat) :
    pairsOf (a :: b :: l) = (a, b) :: pairsOf (b :: l) := rfl

theorem walk_edge (speed : ℚ) :
    ∀ (ns : List Nat) (entries : List (Nat × NodeEntry)) (conn : List Nat)
      (prev : Option Nat) (x y : Nat),
      edgeWeightOf (ns.foldl (walkStep speed) (entries, conn, prev)).1 x y =
        if x ≠ 0 ∧ (x, y) ∈ pairsOf (prev.toList ++ ns) then some speed
        else edgeWeightOf entries x y := by
  intro ns
  induction ns with
  | nil =>
    intro entries conn prev x y
    have hp : pairsOf prev.toList = [] := by
      cases prev <;> rfl
    simp [hp]
  | cons n rest ih =>
    intro entries conn prev x y
    cases prev with
    | none =>
      have hstep : walkStep speed (entries, conn, none) n = (entries, n :: conn, some n) := rfl
      rw [List.foldl_cons, hstep, ih entries (n :: conn) (some n) x y]
      rfl
    | some p =>
      by_cases hp0 : p = 0
      · subst hp0
        have hstep : walkStep speed (entries, conn, some 0) n =
            (entries, n :: conn, some n) := by
          simp [walkStep]
        rw [List.foldl_cons, hstep, ih entries (n :: conn) (some n) x y]
        show (if x ≠ 0 ∧ (x, y) ∈ pairsOf (n :: rest) then some speed
            else edgeWeightOf entries x y) =
          if x ≠ 0 ∧ (x, y) ∈ pairsOf (0 :: n :: rest) then some speed
            else edgeWeightOf entries x y
        by_cases hcond : x ≠ 0 ∧ (x, y) ∈ pairsOf (n :: rest)
        · rw [if_pos hcond, if_pos ?_]
          exact ⟨hcond.1, by rw [pairsOf_cons_cons]; exact List.mem_cons_of_mem _ hcond.2⟩
        · rw [if_neg hcond, if_neg ?_]
          intro hcontra
          obtain ⟨hx0, hmem⟩ := hcontra
          rw [pairsOf_cons_cons] at hmem
          rcases List.mem_cons.mp hmem with h | h
          · exact hx0 (congrArg Prod.fst h)
          · exact hcond ⟨hx0, h⟩
      · have hstep : walkStep speed (entries, conn, some p) n =
            (addEdge entries p n speed, n :: conn, some n) := by
          simp [walkStep, hp0]
        rw [List.foldl_cons, hstep,
          ih (addEdge entries p n speed) (n :: conn) (some n) x y,
          edgeWeightOf_addEdge]
        show (if x ≠ 0 ∧ (x, y) ∈ pairsOf (n :: rest) then some speed
            else if p = x ∧ n = y then some speed else edgeWeightOf entries x y) =
          if x ≠ 0 ∧ (x, y) ∈ pairsOf (p :: n :: rest) then some speed
            else edgeWeightOf entries x y
        by_cases hcond : x ≠ 0 ∧ (x, y) ∈ pairsOf (n :: rest)
        · rw [if_pos hcond, if_pos ?_]
          exact ⟨hcond.1, by rw [pairsOf_cons_cons]; exact List.mem_cons_of_mem _ hcond.2⟩
        · rw [if_neg hcond]
          by_cases hpx : p = x ∧ n = y
          · rw [if_pos hpx, if_pos ?_]
            constructor
            · rw [← hpx.1]; exact hp0
            · rw [pairsOf_cons_cons, ← hpx.1, ← hpx.2]
              exact List.mem_cons_self _ _
          · rw [if_neg hpx, if_neg ?_]
            intro hcontra
            obtain ⟨hx0, hmem⟩ := hcontra
            rw [pairsOf_cons_cons] at hmem
            rcases List.mem_cons.mp hmem with h | h
            · have hx : x = p := congrArg Prod.fst h
              have hy : y = n := congrArg Prod.snd h
              exact hpx ⟨hx.symm, hy.symm⟩
            · exact hcond ⟨hx0, h⟩

theorem pairsOf_append_single :
    ∀ (l : List Nat) (x : Nat), l ≠ [] →
      pairsOf (l ++ [x]) = pairsOf l ++ [(l.getLastD 0, x)] := by
  intro l
  induction l with
  | nil => intro x h; exact absurd rfl h
  | cons a l1 ih =>
    intro x _
    cases l1 with
    | nil => rfl
    | cons b l2 =>
      have hlast : (a :: b :: l2).getLastD 0 = (b :: l2).getLastD 0 := by
        have := getLastD_irrel (b :: l2) (by simp) a 0
        simp [List.getLastD_cons, this]
      rw [hlast]
      show (a, b) :: pairsOf ((b :: l2) ++ [x]) =
        ((a, b) :: pairsOf (b :: l2)) ++ [((b :: l2).getLastD 0, x)]
      rw [ih x (by simp)]
      rfl

theorem pairsOf_reverse_mem :
    ∀ (l : List Nat) (x y : Nat), (x, y) ∈ pairsOf l.reverse ↔ (y, x) ∈ pairsOf l := by
  intro l
  induction l with
  | nil => intro x y; simp [pairsOf]
  | cons a l1 ih =>
    intro x y
    cases l1 with
    | nil => simp [pairsOf]
    | cons b l2 =>
      have hrev : (a :: b :: l2).reverse = (b :: l2).reverse ++ [a] := by
        simp
      have hne : (b :: l2).reverse ≠ [] := by simp
      rw [hrev, pairsOf_append_single _ a hne]
      have hlast : ((b :: l2).reverse).getLastD 0 = b := by
        have h1 := getLast?_eq_getLastD ((b :: l2).reverse) hne 0
        rw [List.getLast?_reverse] at h1
        simp only [List.head?_cons, Option.some_inj] at h1
        exact h1.symm
      rw [hlast, pairsOf_cons_cons]
      constructor
      · intro h
        rcases List.mem_append.mp h with h | h
        · exact List.mem_cons_of_mem _ ((ih x y).mp h)
        · have hxy := List.mem_singleton.mp h
          have hx : x = b := congrArg Prod.fst hxy
          have hy : y = a := congrArg Prod.snd hxy
          subst hx; subst hy
          exact List.mem_cons_self _ _
      · intro h
        rcases List.mem_cons.mp h with h | h
        · have hy : y = a := congrArg Prod.fst h
          have hx : x = b := congrArg Prod.snd h
          subst hx; subst hy
          exact List.mem_append.mpr (Or.inr (List.mem_singleton_self _))
        · exact List.mem_append.mpr (Or.inl ((ih x y).mpr h))

theorem walkWay_fst (speed : ℚ) (entries : List (Nat × NodeEntry))
    (conn : List Nat) (ns : List Nat) :
    walkWay speed entries conn ns =
      ((ns.foldl (walkStep speed) (entries, conn, none)).1,
        (ns.foldl (walkStep speed) (entries, conn, none)).2.1) := by
  unfold walkWay
  rcases ns.foldl (walkStep speed) (entries, conn, none) with ⟨e, c, p⟩
  rfl

theorem processWay_edge (st : List (Nat × NodeEntry) × List Nat) (w : OsmWay)
    (x y : Nat) :
    edgeWeightOf (processWay st w).1 x y =
      if wayRecords w x y = true then some (resolvedSpeed w)
      else edgeWeightOf st.1 x y := by
  by_cases hacc : acceptedWay w = true
  · unfold processWay
    rw [if_pos hacc]
    simp only [walkWay_fst]
    by_cases hone : onewayYes w = true
    · rw [if_pos hone]
      show edgeWeightOf (w.nodes.foldl (walkStep (resolvedSpeed w)) (st.1, st.2, none)).1 x y = _
      rw [walk_edge]
      have hrec : wayRecords w x y =
          (decide (x ≠ 0) && decide ((x, y) ∈ pairsOf w.nodes)) := by
        simp [wayRecords, hacc, hone]
      by_cases hcond : x ≠ 0 ∧ (x, y) ∈ pairsOf ((none : Option Nat).toList ++ w.nodes)
      · rw [if_pos hcond, if_pos ?_]
        rw [hrec]
        simp only [Bool.and_eq_true, decide_eq_true_eq]
        exact hcond
      · rw [if_neg hcond, if_neg ?_]
        rw [hrec]
        simp only [Bool.and_eq_true, decide_eq_true_eq]
        exact hcond
    · rw [if_neg hone]
      show edgeWeightOf
          ((w.nodes.reverse.foldl (walkStep (resolvedSpeed w))
            ((w.nodes.foldl (walkStep (resolvedSpeed w)) (st.1, st.2, none)).1,
             (w.nodes.foldl (walkStep (resolvedSpeed w)) (st.1, st.2, none)).2.1, none))).1 x y = _
      rw [walk_edge, walk_edge]
      have hone2 : onewayYes w = false := by
        cases h : onewayYes w
        · rfl
        · exact absurd h hone
      by_cases hc1 : x ≠ 0 ∧ (x, y) ∈ pairsOf ((none : Option Nat).toList ++ w.nodes.reverse)
      · rw [if_pos hc1, if_pos ?_]
        simp only [wayRecords, hacc, hone2, Bool.not_false, Bool.true_and,
          Bool.and_eq_true, Bool.or_eq_true, decide_eq_true_eq]
        exact ⟨hc1.1, Or.inr hc1.2⟩
      · rw [if_neg hc1]
        by_cases hc2 : x ≠ 0 ∧ (x, y) ∈ pairsOf ((none : Option Nat).toList ++ w.nodes)
        · rw [if_pos hc2, if_pos ?_]
          simp only [wayRecords, hacc, hone2, Bool.not_false, Bool.true_and,
            Bool.and_eq_true, Bool.or_eq_true, decide_eq_true_eq]
          exact ⟨hc2.1, Or.inl hc2.2⟩
        · rw [if_neg hc2, if_neg ?_]
          simp only [wayRecords, hacc, hone2, Bool.not_false, Bool.true_and,
            Bool.and_eq_true, Bool.or_eq_true, decide_eq_true_eq]
          intro hcontra
          obtain ⟨hx0, hor⟩ := hcontra
          rcases hor with h | h
          · exact hc2 ⟨hx0, h⟩
          · exact hc1 ⟨hx0, h⟩
  · unfold processWay
    rw [if_neg hacc]
    have : wayRecords w x y = false := by
      simp [wayRecords]
      intro h
      exact absurd h hacc
    rw [this]
    simp

theorem foldl_processWay_edge :
    ∀ (ways : List OsmWay) (st : List (Nat × NodeEntry) × List Nat) (x y : Nat),
      edgeWeightOf (ways.foldl processWay st).1 x y =
        match ways.reverse.find? (fun w => wayRecords w x y) with
        | some w => some (resolvedSpeed w)
        | none => edgeWeightOf st.1 x y := by
  intro ways
  induction ways with
  | nil => intro st x y; rfl
  | cons w ws ih =>
    intro st x y
    rw [List.foldl_cons, ih (processWay st w) x y]
    have hrev : (w :: ws).reverse = ws.reverse ++ [w] := by simp
    rw [hrev, List.find?_append]
    cases hf : ws.reverse.find? (fun w2 => wayRecords w2 x y) with
    | some w1 => rfl
    | none =>
      simp only [Option.none_or]
      rw [processWay_edge]
      by_cases hp : wayRecords w x y = true
      · have hfw : List.find? (fun w2 => wayRecords w2 x y) [w] = some w := by
          simp [List.find?_cons, hp]
        rw [hfw, if_pos hp]
      · have hfw : List.find? (fun w2 => wayRecords w2 x y) [w] = none := by
          simp [List.find?_cons, hp]
        rw [hfw, if_neg hp]

theorem edgeWeightOf_dinsert_same_connected (entries : List (Nat × NodeEntry))
    (k : Nat) (e e2 : NodeEntry) (hlookup : dlookup entries k = some e)
    (hconn : e2.connected = e.connected) (x y : Nat) :
    edgeWeightOf (dinsert entries k e2) x y = edgeWeightOf entries x y := by
  unfold edgeWeightOf
  rw [dlookup_dinsert]
  by_cases hk : k = x
  · rw [if_pos hk, ← hk, hlookup]
    show dlookup e2.connected y = dlookup e.connected y
    rw [hconn]
  · rw [if_neg hk]

theorem edgeWeightOf_append_entry (entries : List (Nat × NodeEntry)) (k : Nat)
    (e : NodeEntry) (hconn : e.connected = [])
    (hlookup : dlookup entries k = none) (x y : Nat) :
    edgeWeightOf (entries ++ [(k, e)]) x y = edgeWeightOf entries x y := by
  unfold edgeWeightOf
  rw [dlookup_append_single]
  cases hx : dlookup entries x with
  | some e0 => rfl
  | none =>
    by_cases hk : k = x
    · simp [hk, hconn, dlookup]
    · simp [hk]

theorem edgeWeightOf_processNode (conn : List Nat) (st : Aux) (nrec : OsmNode)
    (x y : Nat) :
    edgeWeightOf (processNode conn st nrec).entries x y =
      edgeWeightOf st.entries x y := by
  unfold processNode
  by_cases hm : nrec.id ∈ conn
  · rw [if_pos hm]
    cases he : dlookup st.entries nrec.id with
    | some e =>
      exact edgeWeightOf_dinsert_same_connected st.entries nrec.id e
        { e with latlon := some (nrec.lat, nrec.lon), tags := some nrec.tags }
        he rfl x y
    | none =>
      exact edgeWeightOf_append_entry st.entries nrec.id
        ⟨some (nrec.lat, nrec.lon), some nrec.tags, []⟩ rfl he x y
  · rw [if_neg hm]

theorem foldl_processNode_edge :
    ∀ (nodesL : List OsmNode) (conn : List Nat) (st : Aux) (x y : Nat),
      edgeWeightOf ((nodesL.foldl (processNode conn) st)).entries x y =
        edgeWeightOf st.entries x y := by
  intro nodesL
  induction nodesL with
  | nil => intro conn st x y; rfl
  | cons nr rest ih =>
    intro conn st x y
    rw [List.foldl_cons, ih conn (processNode conn st nr) x y,
      edgeWeightOf_processNode]

/-- The master description of the built graph's edges: the weight of `x → y`
is the resolved speed of the last way that records that pair, and the edge is
absent when no way records it. -/
theorem edgeWeight_build (nodesL : List OsmNode) (waysL : List OsmWay) (x y : Nat) :
    edgeWeight (build_auxiliary_structures nodesL waysL) x y =
      match waysL.reverse.find? (fun w => wayRecords w x y) with
      | some w => some (resolvedSpeed w)
      | none => none := by
  unfold edgeWeight build_auxiliary_structures
  rcases hws : waysL.foldl processWay ([], []) with ⟨entries0, conn0⟩
  have h2 := foldl_processNode_edge nodesL conn0
    { entries := entries0, locations := [] } x y
  have h1 := foldl_processWay_edge waysL ([], []) x y
  rw [hws] at h1
  cases hf : waysL.reverse.find? (fun w => wayRecords w x y) with
  | some w =>
    rw [hf] at h1
    exact h2.trans h1
  | none =>
    rw [hf] at h1
    exact h2.trans h1

/-! ### Which node ids can appear in the built structure -/

theorem walk_conn (speed : ℚ) :
    ∀ (ns : List Nat) (st : List (Nat × NodeEntry) × List Nat × Option Nat) (x : Nat),
      x ∈ (ns.foldl (walkStep speed) st).2.1 ↔ x ∈ ns ∨ x ∈ st.2.1 := by
  intro ns
  induction ns with
  | nil => intro st x; simp
  | cons n rest ih =>
    intro st x
    rw [List.foldl_cons, ih (walkStep speed st n) x]
    have hconn : (walkStep speed st n).2.1 = n :: st.2.1 := by
      rcases st with ⟨entries, conn, prev⟩
      rfl
    rw [hconn]
    simp only [List.mem_cons]
    tauto

theorem processWay_conn (st : List (Nat × NodeEntry) × List Nat) (w : OsmWay)
    (x : Nat) :
    x ∈ (processWay st w).2 ↔
      (acceptedWay w = true ∧ x ∈ w.nodes) ∨ x ∈ st.2 := by
  unfold processWay
  by_cases hacc : acceptedWay w = true
  · rw [if_pos hacc]
    simp only [walkWay_fst]
    by_cases hone : onewayYes w = true
    · rw [if_pos hone]
      rw [walk_conn]
      simp [hacc]
    · rw [if_neg hone]
      rw [walk_conn, walk_conn]
      simp only [List.mem_reverse]
      constructor
      · intro h
        rcases h with h | h | h
        · exact Or.inl ⟨hacc, h⟩
        · exact Or.inl ⟨hacc, h⟩
        · exact Or.inr h
      · intro h
        rcases h with ⟨_, h⟩ | h
        · exact Or.inr (Or.inl h)
        · exact Or.inr (Or.inr h)
  · rw [if_neg hacc]
    simp [hacc]

theorem foldl_processWay_conn :
    ∀ (ways : List OsmWay) (st : List (Nat × NodeEntry) × List Nat) (x : Nat),
      x ∈ (ways.foldl processWay st).2 ↔
        (∃ w ∈ ways, acceptedWay w = true ∧ x ∈ w.nodes) ∨ x ∈ st.2 := by
  intro ways
  induction ways with
  | nil => intro st x; simp
  | cons w ws ih =>
    intro st x
    rw [List.foldl_cons, ih (processWay st w) x, processWay_conn]
    constructor
    · intro h
      rcases h with ⟨w1, hw1, hp⟩ | h | h
      · exact Or.inl ⟨w1, List.mem_cons_of_mem _ hw1, hp⟩
      · exact Or.inl ⟨w, List.mem_cons_self _ _, h⟩
      · exact Or.inr h
    · intro h
      rcases h with ⟨w1, hw1, hp⟩ | h
      · rcases List.mem_cons.mp hw1 with h2 | h2
        · exact Or.inr (Or.inl (h2 ▸ hp))
        · exact Or.inl ⟨w1, h2, hp⟩
      · exact Or.inr (Or.inr h)

/-! ### Nodes never referenced by an accepted way stay out of everything -/

theorem addEdge_avoid (entries : List (Nat × NodeEntry)) (a b : Nat) (s : ℚ)
    (x : Nat)
    (hav : ∀ p ∈ entries, p.1 ≠ x ∧ ∀ q ∈ p.2.connected, q.1 ≠ x)
    (ha : a ≠ x) (hb : b ≠ x) :
    ∀ p ∈ addEdge entries a b s, p.1 ≠ x ∧ ∀ q ∈ p.2.connected, q.1 ≠ x := by
  intro p hp
  unfold addEdge at hp
  cases he : dlookup entries a with
  | some e =>
    rw [he] at hp
    rcases mem_dinsert _ _ _ _ hp with h | h
    · subst h
      refine ⟨ha, ?_⟩
      intro q hq
      rcases mem_dinsert _ _ _ _ hq with h2 | h2
      · subst h2; exact hb
      · exact (hav (a, e) (dlookup_mem _ _ _ he)).2 q h2
    · exact hav p h
  | none =>
    rw [he] at hp
    rcases List.mem_append.mp hp with h | h
    · exact hav p h
    · have h2 : p = (a, ⟨none, none, [(b, s)]⟩) := List.mem_singleton.mp h
      subst h2
      refine ⟨ha, ?_⟩
      intro q hq
      have h3 : q = (b, s) := List.mem_singleton.mp hq
      subst h3
      exact hb

theorem walk_avoid (speed : ℚ) :
    ∀ (ns : List Nat) (entries : List (Nat × NodeEntry)) (conn : List Nat)
      (prev : Option Nat) (x : Nat),
      (∀ p ∈ entries, p.1 ≠ x ∧ ∀ q ∈ p.2.connected, q.1 ≠ x) →
      x ∉ ns →
      (∀ p0, prev = some p0 → p0 ≠ x) →
      ∀ p ∈ (ns.foldl (walkStep speed) (entries, conn, prev)).1,
        p.1 ≠ x ∧ ∀ q ∈ p.2.connected, q.1 ≠ x := by
  intro ns
  induction ns with
  | nil => intro entries conn prev x hav _ _ p hp; exact hav p hp
  | cons n rest ih =>
    intro entries conn prev x hav hns hprev
    have hn : n ≠ x := fun h => hns (h ▸ List.mem_cons_self _ _)
    have hrest : x ∉ rest := fun h => hns (List.mem_cons_of_mem _ h)
    cases prev with
    | none =>
      rw [List.foldl_cons]
      exact ih entries (n :: conn) (some n) x hav hrest
        (fun p0 hp0 => (Option.some_inj.mp hp0) ▸ hn)
    | some p0 =>
      have hp0 : p0 ≠ x := hprev p0 rfl
      by_cases hz : p0 = 0
      · subst hz
        have hstep : walkStep speed (entries, conn, some 0) n =
            (entries, n :: conn, some n) := by simp [walkStep]
        rw [List.foldl_cons, hstep]
        exact ih entries (n :: conn) (some n) x hav hrest
          (fun q hq => (Option.some_inj.mp hq) ▸ hn)
      · have hstep : walkStep speed (entries, conn, some p0) n =
            (addEdge entries p0 n speed, n :: conn, some n) := by simp [walkStep, hz]
        rw [List.foldl_cons, hstep]
        exact ih (addEdge entries p0 n speed) (n :: conn) (some n) x
          (addEdge_avoid entries p0 n speed x hav hp0 hn) hrest
          (fun q hq => (Option.some_inj.mp hq) ▸ hn)

theorem processWay_avoid (st : List (Nat × NodeEntry) × List Nat) (w : OsmWay)
    (x : Nat)
    (hav : ∀ p ∈ st.1, p.1 ≠ x ∧ ∀ q ∈ p.2.connected, q.1 ≠ x)
    (hx : acceptedWay w = true → x ∉ w.nodes) :
    ∀ p ∈ (processWay st w).1, p.1 ≠ x ∧ ∀ q ∈ p.2.connected, q.1 ≠ x := by
  unfold processWay
  by_cases hacc : acceptedWay w = true
  · rw [if_pos hacc]
    have hxw := hx hacc
    simp only [walkWay_fst]
    by_cases hone : onewayYes w = true
    · rw [if_pos hone]
      exact walk_avoid (resolvedSpeed w) w.nodes st.1 st.2 none x hav hxw
        (fun p0 hp0 => by cases hp0)
    · rw [if_neg hone]
      have h1 := walk_avoid (resolvedSpeed w) w.nodes st.1 st.2 none x hav hxw
        (fun p0 hp0 => by cases hp0)
      exact walk_avoid (resolvedSpeed w) w.nodes.reverse _ _ none x h1
        (by simpa using hxw) (fun p0 hp0 => by cases hp0)
  · rw [if_neg hacc]
    exact hav

theorem foldl_processWay_avoid :
    ∀ (ways : List OsmWay) (st : List (Nat × NodeEntry) × List Nat) (x : Nat),
      (∀ p ∈ st.1, p.1 ≠ x ∧ ∀ q ∈ p.2.connected, q.1 ≠ x) →
      (∀ w ∈ ways, acceptedWay w = true → x ∉ w.nodes) →
      ∀ p ∈ (ways.foldl processWay st).1, p.1 ≠ x ∧ ∀ q ∈ p.2.connected, q.1 ≠ x := by
  intro ways
  induction ways with
  | nil => intro st x hav _; exact hav
  | cons w ws ih =>
    intro st x hav hx
    rw [List.foldl_cons]
    exact ih (processWay st w) x
      (processWay_avoid st w x hav (hx w (List.mem_cons_self _ _)))
      (fun w1 hw1 => hx w1 (List.mem_cons_of_mem _ hw1))

theorem processNode_avoid (conn : List Nat) (st : Aux) (nr : OsmNode) (x : Nat)
    (hconn : x ∉ conn)
    (hav : ∀ p ∈ st.entries, p.1 ≠ x ∧ ∀ q ∈ p.2.connected, q.1 ≠ x)
    (hloc : ∀ r ∈ st.locations, r.2 ≠ x) :
    (∀ p ∈ (processNode conn st nr).entries,
      p.1 ≠ x ∧ ∀ q ∈ p.2.connected, q.1 ≠ x) ∧
    (∀ r ∈ (processNode conn st nr).locations, r.2 ≠ x) := by
  unfold processNode
  by_cases hm : nr.id ∈ conn
  · rw [if_pos hm]
    have hid : nr.id ≠ x := fun h => hconn (h ▸ hm)
    constructor
    · intro p hp
      cases he : dlookup st.entries nr.id with
      | some e =>
        rw [he] at hp
        rcases mem_dinsert _ _ _ _ hp with h | h
        · subst h
          exact ⟨hid, (hav (nr.id, e) (dlookup_mem _ _ _ he)).2⟩
        · exact hav p h
      | none =>
        rw [he] at hp
        rcases List.mem_append.mp hp with h | h
        · exact hav p h
        · have h2 : p = (nr.id, ⟨some (nr.lat, nr.lon), some nr.tags, []⟩) :=
            List.mem_singleton.mp h
          subst h2
          exact ⟨hid, by intro q hq; simp at hq⟩
    · intro r hr
      rcases mem_dinsert _ _ _ _ hr with h | h
      · subst h; exact hid
      · exact hloc r h
  · rw [if_neg hm]
    exact ⟨hav, hloc⟩

theorem foldl_processNode_avoid :
    ∀ (nodesL : List OsmNode) (conn : List Nat) (st : Aux) (x : Nat),
      x ∉ conn →
      (∀ p ∈ st.entries, p.1 ≠ x ∧ ∀ q ∈ p.2.connected, q.1 ≠ x) →
      (∀ r ∈ st.locations, r.2 ≠ x) →
      (∀ p ∈ (nodesL.foldl (processNode conn) st).entries,
        p.1 ≠ x ∧ ∀ q ∈ p.2.connected, q.1 ≠ x) ∧
      (∀ r ∈ (nodesL.foldl (processNode conn) st).locations, r.2 ≠ x) := by
  intro nodesL
  induction nodesL with
  | nil => intro conn st x _ hav hloc; exact ⟨hav, hloc⟩
  | cons nr rest ih =>
    intro conn st x hconn hav hloc
    rw [List.foldl_cons]
    obtain ⟨h1, h2⟩ := processNode_avoid conn st nr x hconn hav hloc
    exact ih conn (processNode conn st nr) x hconn h1 h2

/-- A node referenced only by rejected ways (or by no way at all) appears
neither as an entry key, nor as an adjacency target, nor as a value of the
coordinate index. -/
theorem build_avoids (nodesL : List OsmNode) (waysL : List OsmWay) (x : Nat)
    (hx : ∀ w ∈ waysL, acceptedWay w = true → x ∉ w.nodes) :
    (∀ p ∈ (build_auxiliary_structures nodesL waysL).entries,
      p.1 ≠ x ∧ ∀ q ∈ p.2.connected, q.1 ≠ x) ∧
    (∀ r ∈ (build_auxiliary_structures nodesL waysL).locations, r.2 ≠ x) := by
  unfold build_auxiliary_structures
  rcases hws : waysL.foldl processWay ([], []) with ⟨entries0, conn0⟩
  have hconn : x ∉ conn0 := by
    intro hc
    have := (foldl_processWay_conn waysL ([], []) x).mp (by rw [hws]; exact hc)
    rcases this with ⟨w, hw, hacc, hmem⟩ | h
    · exact hx w hw hacc hmem
    · simp at h
  have hav : ∀ p ∈ entries0, p.1 ≠ x ∧ ∀ q ∈ p.2.connected, q.1 ≠ x := by
    have := foldl_processWay_avoid waysL ([], []) x (by intro p hp; simp at hp) hx
    rw [hws] at this
    exact this
  exact foldl_processNode_avoid nodesL conn0
    { entries := entries0, locations := [] } x hconn hav
    (by intro r hr; simp at hr)

/-! ### Claim theorems -/

/-- C1 counterexample: on a nonnegative-cost graph with a zero-cost edge
(`1 → 2` costs 0, `2 → 3` costs 5, `1 → 3` costs 6) the engine returns the
path `[1, 3]` of cost 6, although `[1, 2, 3]` is a path of the graph of cost
5: the returned cost is not the minimum over all paths, because `if c:`
drops the zero-cost edge. -/
theorem zero_cost_edge_breaks_optimality :
    searchLoopM exNbrs (fun u v => Except.ok (exCost0 u v)) (fun _ => Except.ok 0)
      false 3 10 [([1], 0)] [] = some (Except.ok (some [1, 3])) ∧
    exCost0 1 2 = some 0 ∧ exCost0 2 3 = some 5 ∧ exCost0 1 3 = some 6 ∧
    isChain exNbrs exCost0 [1, 2, 3] = true ∧
    pathCost exCost0 [1, 2, 3] = 5 ∧
    pathCost exCost0 [1, 3] = 6 ∧
    (5 : ℚ) < 6 := by
  with_unfolding_all decide

/-- C1 (amended): whenever the best-first engine returns a path over a graph
with nonnegative edge costs — uniform-cost search, or A* with a consistent
(admissible, geodesic-style) heuristic — the returned node sequence is a path
from start to goal over the edges of nonzero cost, and its accumulated cost
is minimal among all such paths (zero-cost edges are skipped by the `if c:`
truthiness test, so they are excluded from the compared paths). -/
theorem uniform_cost_search_optimal_cost
    (nbrs : Nat → List Nat) (costP : Nat → Nat → Option ℚ) (hP : Nat → ℚ)
    (heuristic : Bool) (start goal fuel : Nat) (p : List Nat)
    (hnn : ∀ u v c, v ∈ nbrs u → costP u v = some c → 0 ≤ c)
    (hadm : heuristic = true →
      ∀ u v c, v ∈ nbrs u → costP u v = some c → hP u ≤ c + hP v)
    (hrun : searchLoopM nbrs (fun u v => Except.ok (costP u v))
      (fun n => Except.ok (hP n)) heuristic goal fuel [([start], 0)] [] =
      some (Except.ok (some p))) :
    p.head? = some start ∧ p.getLast? = some goal ∧
    isChain nbrs (truthyCost costP) p = true ∧
    ∀ Q, isChain nbrs (truthyCost costP) Q = true → Q.head? = some start →
      Q.getLast? = some goal → pathCost costP p ≤ pathCost costP Q := by
  refine engine_optimal nbrs _ costP _ hP heuristic start goal fuel p
    (fun u v => rfl) (fun _ n => rfl) hnn ?_ hrun
  intro u v c hm hc
  unfold heurOf
  cases heuristic with
  | false => simpa using hnn u v c hm hc
  | true => simpa using hadm rfl u v c hm hc

/-- Witness for C1 at a concrete positive-cost graph and run. -/
theorem uniform_cost_search_optimal_cost_witness :
    (∀ u v c, v ∈ exNbrs u → exCostPos u v = some c → (0 : ℚ) ≤ c) ∧
    ([1, 3].head? = some 1 ∧ [1, 3].getLast? = some 3 ∧
      isChain exNbrs (truthyCost exCostPos) [1, 3] = true ∧
      ∀ Q, isChain exNbrs (truthyCost exCostPos) Q = true → Q.head? = some 1 →
        Q.getLast? = some 3 → pathCost exCostPos [1, 3] ≤ pathCost exCostPos Q) := by
  have hnn : ∀ u v c, v ∈ exNbrs u → exCostPos u v = some c → (0 : ℚ) ≤ c := by
    intro u v c _ hc
    unfold exCostPos at hc
    split_ifs at hc <;> simp_all <;> norm_num [← hc]
  exact ⟨hnn,
    uniform_cost_search_optimal_cost exNbrs exCostPos (fun _ => 0) false 1 3 10 [1, 3]
      hnn (fun h => absurd h (by decide)) (by with_unfolding_all decide)⟩

/-- C2: a node referenced by an accepted two-way way but absent from the node
stream (node 2 of `auxMissing`) ends up as a structure key without a
coordinate; `get_lat_lon` then raises `KeyError` instead of returning `None`,
the cost computation raises rather than reporting "no cost", and the whole
search raises — construction itself succeeds and indexes the present nodes. -/
theorem missing_coordinate_crashes_search :
    (dlookup auxMissing.entries 2).isSome = true ∧
    get_lat_lon auxMissing 2 = Except.error () ∧
    distCost gcdL1 auxMissing 1 2 = Except.error () ∧
    find_short_path gcdL1 10 auxMissing (0, 0) (5, 5) = some (Except.error ()) ∧
    auxMissing.locations = [((0, 0), 1), ((5, 5), 3)] := by
  with_unfolding_all decide

/-- C3 counterexample: the neighbour `2` of the expanded node `1` has the
computable edge cost `some 0`, yet it is not pushed (the `if c:` truthiness
test skips it), and the engine consequently reports not-found although the
edge exists. -/
theorem zero_cost_neighbor_not_pushed :
    exCost0 1 2 = some 0 ∧
    isChain exNbrs exCost0 [1, 2] = true ∧
    pushFnP exCost0 [1] 1 [1] 0 2 = none ∧
    searchLoopM exNbrs (fun u v => Except.ok (exCost0 u v)) (fun _ => Except.ok 0)
      false 2 5 [([1], 0)] [] = some (Except.ok none) := by
  with_unfolding_all decide

/-- C3 (amended): in an expansion step, an entry is pushed for exactly the
neighbours that are not expanded and whose cost is computable and nonzero
(with the extended path and accumulated cost); an unexpanded neighbour is
skipped if and only if the cost function reports no cost available or a cost
of exactly zero. -/
theorem push_condition_characterization :
    (∀ (costP : Nat → Nat → Option ℚ) (exp : List Nat) (t : Nat) (p : List Nat)
      (g : ℚ) (ns : List Nat) (e : SearchEntry),
      e ∈ pushListP costP exp t p g ns ↔
        ∃ n, n ∈ ns ∧ n ∉ exp ∧ ∃ c, costP t n = some c ∧ c ≠ 0 ∧
          e = (p ++ [n], g + c)) ∧
    (∀ (costP : Nat → Nat → Option ℚ) (exp : List Nat) (t : Nat) (p : List Nat)
      (g : ℚ) (n : Nat), n ∉ exp →
      (pushFnP costP exp t p g n = none ↔
        costP t n = none ∨ costP t n = some 0)) := by
  constructor
  · intro costP exp t p g ns e
    exact mem_pushListP
  · intro costP exp t p g n hexp
    constructor
    · intro h
      cases hc : costP t n with
      | none => exact Or.inl rfl
      | some c =>
        by_cases hc0 : c = 0
        · subst hc0
          exact Or.inr rfl
        · simp [pushFnP, hexp, hc, hc0] at h
    · intro h
      rcases h with h | h
      · simp [pushFnP, hexp, h]
      · simp [pushFnP, hexp, h]

/-- Witness for C3 at concrete inputs. -/
theorem push_condition_characterization_witness :
    ((([1], 0 + 6) : SearchEntry) ∈ pushListP exCost0 [1] 1 [1] 0 [2, 3] ↔
      ∃ n, n ∈ [2, 3] ∧ n ∉ [1] ∧ ∃ c, exCost0 1 n = some c ∧ c ≠ 0 ∧
        (([1], 0 + 6) : SearchEntry) = ([1] ++ [n], 0 + c)) ∧
    (pushFnP exCost0 [1] 1 [1] 0 2 = none ↔
      exCost0 1 2 = none ∨ exCost0 1 2 = some 0) :=
  ⟨push_condition_characterization.1 exCost0 [1] 1 [1] 0 [2, 3] ([1], 0 + 6),
    push_condition_characterization.2 exCost0 [1] 1 [1] 0 2 (by decide)⟩

/-- C4 counterexample: over `auxZero` both query coordinates resolve to
nodes (ids 1 and 0, distinct), so the claim as stated says the search engine
runs — and indeed the engine would find the path `[1, 0]` — but both
assemblers return not-found, because the resolved id `0` fails the Python
truthiness test `if not n1 or not n2`. -/
theorem node_zero_resolution_not_found :
    get_nearest_node_id gcdL1 (5, 5) auxZero = some 1 ∧
    get_nearest_node_id gcdL1 (0, 0) auxZero = some 0 ∧
    find_short_path gcdL1 10 auxZero (5, 5) (0, 0) = some (Except.ok none) ∧
    find_fast_path gcdL1 10 auxZero (5, 5) (0, 0) = some (Except.ok none) ∧
    uniform_cost_search gcdL1 10 1 0 (connNeighbors auxZero)
      (distCost gcdL1 auxZero) auxZero true = some (Except.ok (some [1, 0])) := by
  with_unfolding_all decide

/-- C4 (amended): both assemblers return not-found when either coordinate
resolves to no node (in particular on an empty graph, without raising) and
also when a resolved id is `0` (the truthiness test treats id 0 as
unresolved); when both coordinates resolve to the same nonzero id they
return that node's single-element coordinate path without running the
engine; and for distinct nonzero ids they run the search engine and convert
its result. -/
theorem path_assembler_dispatch (gcd : Coord → Coord → ℚ) (fuel : Nat)
    (aux : Aux) (loc1 loc2 : Coord) :
    (aux.locations = [] → get_nearest_node_id gcd loc1 aux = none) ∧
    (get_nearest_node_id gcd loc1 aux = none ∨
        get_nearest_node_id gcd loc2 aux = none →
      find_short_path gcd fuel aux loc1 loc2 = some (Except.ok none) ∧
      find_fast_path gcd fuel aux loc1 loc2 = some (Except.ok none)) ∧
    (get_nearest_node_id gcd loc1 aux = some 0 ∨
        get_nearest_node_id gcd loc2 aux = some 0 →
      find_short_path gcd fuel aux loc1 loc2 = some (Except.ok none) ∧
      find_fast_path gcd fuel aux loc1 loc2 = some (Except.ok none)) ∧
    (∀ n, n ≠ 0 → get_nearest_node_id gcd loc1 aux = some n →
      get_nearest_node_id gcd loc2 aux = some n →
      find_short_path gcd fuel aux loc1 loc2 =
        some ((nodeLoc aux n).map (fun ll => some [ll])) ∧
      find_fast_path gcd fuel aux loc1 loc2 =
        some ((nodeLoc aux n).map (fun ll => some [ll]))) ∧
    (∀ a b, a ≠ 0 → b ≠ 0 → a ≠ b →
      get_nearest_node_id gcd loc1 aux = some a →
      get_nearest_node_id gcd loc2 aux = some b →
      find_short_path gcd fuel aux loc1 loc2 =
        (match uniform_cost_search gcd fuel a b (connNeighbors aux)
            (distCost gcd aux) aux true with
         | none => none
         | some (Except.error u) => some (Except.error u)
         | some (Except.ok r) => some (convert_nodes_path_to_loc_path aux r)) ∧
      find_fast_path gcd fuel aux loc1 loc2 =
        (match uniform_cost_search gcd fuel a b (connNeighbors aux)
            (timeCost gcd aux) aux false with
         | none => none
         | some (Except.error u) => some (Except.error u)
         | some (Except.ok r) => some (convert_nodes_path_to_loc_path aux r))) := by
  refine ⟨?_, ?_, ?_, ?_, ?_⟩
  · intro h
    unfold get_nearest_node_id
    rw [h]
    rfl
  · intro h
    rcases h with h | h <;>
      constructor <;>
      simp [find_short_path, find_fast_path, h, natOptTruthy]
  · intro h
    rcases h with h | h <;>
      constructor <;>
      simp [find_short_path, find_fast_path, h, natOptTruthy]
  · intro n hn h1 h2
    constructor <;>
      simp [find_short_path, find_fast_path, h1, h2, natOptTruthy, hn]
  · intro a b ha hb hab h1 h2
    constructor <;>
      simp [find_short_path, find_fast_path, h1, h2, natOptTruthy, ha, hb, hab]

/-- Witness for C4: over `auxZero`, both coordinates resolve to node 1, and
the assembler returns a single-element coordinate path. -/
theorem path_assembler_dispatch_witness :
    get_nearest_node_id gcdL1 (5, 5) auxZero = some 1 ∧
    get_nearest_node_id gcdL1 (4, 4) auxZero = some 1 ∧
    find_short_path gcdL1 10 auxZero (5, 5) (4, 4) =
      some ((nodeLoc auxZero 1).map (fun ll => some [ll])) := by
  refine ⟨by with_unfolding_all decide, by with_unfolding_all decide, ?_⟩
  exact ((path_assembler_dispatch gcdL1 10 auxZero (5, 5) (4, 4)).2.2.2.1 1
    (by decide) (by with_unfolding_all decide) (by with_unfolding_all decide)).1

/-- C5 counterexample: the accepted two-way way `[0, 1, 2]` of class
`residential` (resolved speed 25) does not give the edge `0 → 1` (the source
id 0 fails the truthiness test), and its edge `1 → 2` ends up with weight 60,
not 25, because a later way with an explicit speed-limit tag overwrites it. -/
theorem twoway_claim_counterexample :
    acceptedWay (mkWay "residential" [0, 1, 2]) = true ∧
    onewayYes (mkWay "residential" [0, 1, 2]) = false ∧
    resolvedSpeed (mkWay "residential" [0, 1, 2]) = 25 ∧
    (0, 1) ∈ pairsOf (mkWay "residential" [0, 1, 2]).nodes ∧
    (1, 2) ∈ pairsOf (mkWay "residential" [0, 1, 2]).nodes ∧
    edgeWeight auxOverwrite 0 1 = none ∧
    edgeWeight auxOverwrite 1 2 = some 60 := by
  with_unfolding_all decide

/-- C5 (amended): for an accepted two-way way and a consecutive pair (A, B)
of its node sequence with both ids nonzero, both directed edges A → B and
B → A are present in the built graph with the way's resolved speed limit as
weight, provided every way of the input that records either direction of the
pair resolves to the same speed (a later way recording the same pair
overwrites the weight, and an edge whose source id is 0 is never recorded). -/
theorem twoway_edges_weight (nodesL : List OsmNode) (waysL : List OsmWay)
    (w : OsmWay) (a b : Nat) (hw : w ∈ waysL) (hacc : acceptedWay w = true)
    (hone : onewayYes w = false) (hpair : (a, b) ∈ pairsOf w.nodes)
    (ha : a ≠ 0) (hb : b ≠ 0)
    (huniq : ∀ w2 ∈ waysL, wayRecords w2 a b = true ∨ wayRecords w2 b a = true →
      resolvedSpeed w2 = resolvedSpeed w) :
    edgeWeight (build_auxiliary_structures nodesL waysL) a b =
      some (resolvedSpeed w) ∧
    edgeWeight (build_auxiliary_structures nodesL waysL) b a =
      some (resolvedSpeed w) := by
  have hrab : wayRecords w a b = true := by
    simp [wayRecords, hacc, ha, hpair]
  have hrba : wayRecords w b a = true := by
    have hmem : (b, a) ∈ pairsOf w.nodes.reverse :=
      (pairsOf_reverse_mem w.nodes b a).mpr hpair
    simp [wayRecords, hacc, hb, hone, hmem]
  constructor
  · rw [edgeWeight_build]
    have hsome : (waysL.reverse.find? (fun w2 => wayRecords w2 a b)).isSome := by
      rw [List.find?_isSome]
      exact ⟨w, List.mem_reverse.mpr hw, hrab⟩
    obtain ⟨w1, hw1⟩ := Option.isSome_iff_exists.mp hsome
    have hp : wayRecords w1 a b = true := by
      have := List.find?_some hw1
      simpa using this
    rw [hw1]
    show some (resolvedSpeed w1) = some (resolvedSpeed w)
    rw [huniq w1 (List.mem_reverse.mp (List.mem_of_find?_eq_some hw1)) (Or.inl hp)]
  · rw [edgeWeight_build]
    have hsome : (waysL.reverse.find? (fun w2 => wayRecords w2 b a)).isSome := by
      rw [List.find?_isSome]
      exact ⟨w, List.mem_reverse.mpr hw, hrba⟩
    obtain ⟨w1, hw1⟩ := Option.isSome_iff_exists.mp hsome
    have hp : wayRecords w1 b a = true := by
      have := List.find?_some hw1
      simpa using this
    rw [hw1]
    show some (resolvedSpeed w1) = some (resolvedSpeed w)
    rw [huniq w1 (List.mem_reverse.mp (List.mem_of_find?_eq_some hw1)) (Or.inr hp)]

/-- Witness for C5 at a single two-way residential way `[1, 2]`. -/
theorem twoway_edges_weight_witness :
    acceptedWay (mkWay "residential" [1, 2]) = true ∧
    edgeWeight (build_auxiliary_structures [mkNode 1 0 0, mkNode 2 1 1]
      [mkWay "residential" [1, 2]]) 1 2 = some 25 ∧
    edgeWeight (build_auxiliary_structures [mkNode 1 0 0, mkNode 2 1 1]
      [mkWay "residential" [1, 2]]) 2 1 = some 25 := by
  have h := twoway_edges_weight [mkNode 1 0 0, mkNode 2 1 1]
    [mkWay "residential" [1, 2]] (mkWay "residential" [1, 2]) 1 2
    (by decide) (by decide) (by decide) (by decide) (by decide) (by decide)
    (by decide)
  exact ⟨by decide, by simpa using h.1, by simpa using h.2⟩

/-- C6: a way whose road-class tag is absent or outside the allow-list
contributes nothing at all; every edge of the built graph is recorded by an
accepted way (with that way's resolved speed); and a node referenced only by
rejected ways (or by no way) is absent from the entry keys, from every
adjacency list and from the coordinate index. -/
theorem highway_filter_invariants :
    (∀ (st : List (Nat × NodeEntry) × List Nat) (w : OsmWay),
      acceptedWay w = false → processWay st w = st) ∧
    (∀ (nodesL : List OsmNode) (waysL : List OsmWay) (a b : Nat) (s : ℚ),
      edgeWeight (build_auxiliary_structures nodesL waysL) a b = some s →
      ∃ w ∈ waysL, acceptedWay w = true ∧ wayRecords w a b = true ∧
        s = resolvedSpeed w) ∧
    (∀ (nodesL : List OsmNode) (waysL : List OsmWay) (x : Nat),
      (∀ w ∈ waysL, acceptedWay w = true → x ∉ w.nodes) →
      (∀ p ∈ (build_auxiliary_structures nodesL waysL).entries,
        p.1 ≠ x ∧ ∀ q ∈ p.2.connected, q.1 ≠ x) ∧
      (∀ r ∈ (build_auxiliary_structures nodesL waysL).locations, r.2 ≠ x)) := by
  refine ⟨?_, ?_, ?_⟩
  · intro st w h
    simp [processWay, h]
  · intro nodesL waysL a b s hs
    rw [edgeWeight_build] at hs
    cases hf : waysL.reverse.find? (fun w => wayRecords w a b) with
    | none => rw [hf] at hs; cases hs
    | some w1 =>
      rw [hf] at hs
      have hrec := List.find?_some hf
      have hmem := List.mem_reverse.mp (List.mem_of_find?_eq_some hf)
      have hacc : acceptedWay w1 = true := by
        have := hrec
        simp only [wayRecords, Bool.and_eq_true] at this
        exact this.1.1
      exact ⟨w1, hmem, hacc, hrec, (Option.some_inj.mp hs).symm⟩
  · intro nodesL waysL x hx
    exact build_avoids nodesL waysL x hx

/-- Witness for C6: a `footway` way is rejected and contributes nothing, and
its nodes stay out of the built structure. -/
theorem highway_filter_invariants_witness :
    acceptedWay (mkWay "footway" [5, 6]) = false ∧
    processWay ([], []) (mkWay "footway" [5, 6]) = ([], []) ∧
    (∀ p ∈ (build_auxiliary_structures [mkNode 5 0 0]
        [mkWay "footway" [5, 6]]).entries,
      p.1 ≠ 5 ∧ ∀ q ∈ p.2.connected, q.1 ≠ 5) ∧
    (∀ r ∈ (build_auxiliary_structures [mkNode 5 0 0]
        [mkWay "footway" [5, 6]]).locations, r.2 ≠ 5) := by
  refine ⟨by decide, highway_filter_invariants.1 ([], []) _ (by decide), ?_, ?_⟩
  · exact (highway_filter_invariants.2.2 [mkNode 5 0 0] [mkWay "footway" [5, 6]] 5
      (by decide)).1
  · exact (highway_filter_invariants.2.2 [mkNode 5 0 0] [mkWay "footway" [5, 6]] 5
      (by decide)).2

/-- C7: the resolved speed limit of an accepted way is its explicit
`maxspeed_mph` tag when present, otherwise the fixed class default
(motorway 60, trunk 45, primary 35, secondary 30, tertiary 25,
unclassified 25, residential 25, living_street 10, tertiary_link 25, and 30
for the remaining link classes); every edge the way records carries exactly
that resolved speed as its weight. -/
theorem speed_limit_resolution (w : OsmWay) :
    (∀ s, w.maxspeed_mph = some s → resolvedSpeed w = s) ∧
    (w.maxspeed_mph = none →
      (w.highway = some "motorway" → resolvedSpeed w = 60) ∧
      (w.highway = some "trunk" → resolvedSpeed w = 45) ∧
      (w.highway = some "primary" → resolvedSpeed w = 35) ∧
      (w.highway = some "secondary" → resolvedSpeed w = 30) ∧
      (w.highway = some "tertiary" → resolvedSpeed w = 25) ∧
      (w.highway = some "unclassified" → resolvedSpeed w = 25) ∧
      (w.highway = some "residential" → resolvedSpeed w = 25) ∧
      (w.highway = some "living_street" → resolvedSpeed w = 10) ∧
      (w.highway = some "tertiary_link" → resolvedSpeed w = 25) ∧
      (w.highway = some "motorway_link" → resolvedSpeed w = 30) ∧
      (w.highway = some "trunk_link" → resolvedSpeed w = 30) ∧
      (w.highway = some "primary_link" → resolvedSpeed w = 30) ∧
      (w.highway = some "secondary_link" → resolvedSpeed w = 30)) ∧
    (∀ (st : List (Nat × NodeEntry) × List Nat) (a b : Nat),
      wayRecords w a b = true →
      edgeWeightOf (processWay st w).1 a b = some (resolvedSpeed w)) := by
  refine ⟨?_, ?_, ?_⟩
  · intro s h
    unfold resolvedSpeed
    rw [h]
  · intro h
    refine ⟨?_, ?_, ?_, ?_, ?_, ?_, ?_, ?_, ?_, ?_, ?_, ?_, ?_⟩ <;>
      (intro hh; simp [resolvedSpeed, h, hh, DEFAULT_SPEED_LIMIT_MPH, dlookup])
  · intro st a b hr
    rw [processWay_edge, if_pos hr]

/-- Witness for C7: an explicit speed-limit tag overrides the class default. -/
theorem speed_limit_resolution_witness :
    (⟨some "residential", some 60, none, [1, 2]⟩ : OsmWay).maxspeed_mph = some 60 ∧
    resolvedSpeed ⟨some "residential", some 60, none, [1, 2]⟩ = 60 ∧
    resolvedSpeed (mkWay "residential" [1, 2]) = 25 := by
  refine ⟨rfl, ?_, ?_⟩
  · exact (speed_limit_resolution ⟨some "residential", some 60, none, [1, 2]⟩).1 60 rfl
  · exact ((speed_limit_resolution (mkWay "residential" [1, 2])).2.1 rfl).2.2.2.2.2.2.1 rfl

/-- C8: over the same graph, neighbours and (nonnegative) cost function, with
a heuristic that is consistent with the costs, the path returned by the run
with the heuristic enabled and the path returned by the run with the
heuristic disabled have equal total accumulated cost (both are optimal, so
they can differ only in node sequence). -/
theorem heuristic_preserves_optimal_cost
    (nbrs : Nat → List Nat) (costP : Nat → Nat → Option ℚ) (hP : Nat → ℚ)
    (start goal fuel1 fuel2 : Nat) (p q : List Nat)
    (hnn : ∀ u v c, v ∈ nbrs u → costP u v = some c → 0 ≤ c)
    (hcons : ∀ u v c, v ∈ nbrs u → costP u v = some c → hP u ≤ c + hP v)
    (hrun1 : searchLoopM nbrs (fun u v => Except.ok (costP u v))
      (fun n => Except.ok (hP n)) true goal fuel1 [([start], 0)] [] =
      some (Except.ok (some p)))
    (hrun2 : searchLoopM nbrs (fun u v => Except.ok (costP u v))
      (fun n => Except.ok (hP n)) false goal fuel2 [([start], 0)] [] =
      some (Except.ok (some q))) :
    pathCost costP p = pathCost costP q := by
  have h1 := engine_optimal nbrs _ costP _ hP true start goal fuel1 p
    (fun u v => rfl) (fun _ n => rfl) hnn
    (by
      intro u v c hm hc
      simpa [heurOf] using hcons u v c hm hc) hrun1
  have h2 := engine_optimal nbrs _ costP _ hP false start goal fuel2 q
    (fun u v => rfl) (fun _ n => rfl) hnn
    (by
      intro u v c hm hc
      simpa [heurOf] using hnn u v c hm hc) hrun2
  exact le_antisymm (h1.2.2.2 q h2.2.2.1 h2.1 h2.2.1)
    (h2.2.2.2 p h1.2.2.1 h1.1 h1.2.1)

/-- Witness for C8: on the positive-cost three-node graph with the exact
distance-to-goal heuristic, both runs return `[1, 3]` and the theorem gives
equal costs. -/
theorem heuristic_preserves_optimal_cost_witness :
    searchLoopM exNbrs (fun u v => Except.ok (exCostPos u v))
      (fun n => Except.ok (if n = 1 then (6 : ℚ) else if n = 2 then 5 else 0))
      true 3 10 [([1], 0)] [] = some (Except.ok (some [1, 3])) ∧
    searchLoopM exNbrs (fun u v => Except.ok (exCostPos u v))
      (fun n => Except.ok (if n = 1 then (6 : ℚ) else if n = 2 then 5 else 0))
      false 3 10 [([1], 0)] [] = some (Except.ok (some [1, 3])) ∧
    pathCost exCostPos [1, 3] = pathCost exCostPos [1, 3] := by
  refine ⟨by with_unfolding_all decide, by with_unfolding_all decide, ?_⟩
  refine heuristic_preserves_optimal_cost exNbrs exCostPos
    (fun n => if n = 1 then 6 else if n = 2 then 5 else 0) 1 3 10 10 [1, 3] [1, 3]
    ?_ ?_ (by with_unfolding_all decide) (by with_unfolding_all decide)
  · intro u v c _ hc
    unfold exCostPos at hc
    split_ifs at hc <;> simp_all <;> norm_num [← hc]
  · intro u v c hm hc
    unfold exNbrs at hm
    unfold exCostPos at hc
    split_ifs at hm with h1 h2
    · subst h1
      have hv : v = 2 ∨ v = 3 := by simpa using hm
      rcases hv with hv | hv <;> subst hv <;> norm_num at hc ⊢ <;> norm_num [← hc]
    · subst h2
      have hv : v = 3 := by simpa using hm
      subst hv
      norm_num at hc ⊢
      norm_num [← hc]
    · simp at hm

/-- C9: the search engine terminates on every finite graph: with the frontier
empty it returns not-found at once (for any positive fuel), and from the
initial agenda a fuel of (total out-degree of the vertex set) + 2 already
suffices for the loop to return a definite answer — the expanded-set test
ensures no node is expanded twice, so only finitely many pushes ever happen. -/
theorem search_terminates_on_finite_graph
    (nbrs : Nat → List Nat) (costP : Nat → Nat → Option ℚ) (hP : Nat → ℚ)
    (heuristic : Bool) (start goal : Nat) (V : Finset ℕ)
    (hstart : start ∈ V)
    (hcl : ∀ v ∈ V, ∀ n ∈ nbrs v, n ∈ V) :
    (∀ fuel expanded,
      searchLoopM nbrs (fun u v => Except.ok (costP u v))
        (fun n => Except.ok (hP n)) heuristic goal (fuel + 1) [] expanded =
        some (Except.ok none)) ∧
    ∃ r : Option (List Nat),
      searchLoopM nbrs (fun u v => Except.ok (costP u v))
        (fun n => Except.ok (hP n)) heuristic goal
        ((∑ v in V, (nbrs v).length) + 2) [([start], 0)] [] =
        some (Except.ok r) :=
  ⟨fun _ _ => rfl,
    engine_terminates nbrs _ costP _ hP heuristic start goal V
      (fun u v => rfl) (fun _ n => rfl) hstart hcl⟩

/-- Witness for C9 on the three-node graph with vertex set `{1, 2, 3}`. -/
theorem search_terminates_on_finite_graph_witness :
    (1 : ℕ) ∈ ({1, 2, 3} : Finset ℕ) ∧
    (∀ v ∈ ({1, 2, 3} : Finset ℕ), ∀ n ∈ exNbrs v, n ∈ ({1, 2, 3} : Finset ℕ)) ∧
    (∃ r : Option (List Nat),
      searchLoopM exNbrs (fun u v => Except.ok (exCostPos u v))
        (fun n => Except.ok ((fun _ => (0 : ℚ)) n)) false 3
        ((∑ v in ({1, 2, 3} : Finset ℕ), (exNbrs v).length) + 2) [([1], 0)] [] =
        some (Except.ok r)) :=
  ⟨by decide, by decide,
    (search_terminates_on_finite_graph exNbrs exCostPos (fun _ => 0) false 1 3
      {1, 2, 3} (by decide) (by decide)).2⟩

/-- C10: node id `0` is falsy in Python.  In the built graph no directed edge
ever has source id `0` (the builder's `if prev_node_id:` test skips it for
any input); when a query coordinate resolves to node id `0`, both assemblers
return not-found without running the search (the `if not n1 or not n2` test
treats id 0 like an unresolved coordinate); and `auxZero` realises the
scenario: it holds node `0`, the lookup at `(0, 0)` resolves to `0`, both
assemblers give not-found, yet the engine itself would return the existing
path `[1, 0]`. -/
theorem zero_node_id_truthiness :
    (∀ (nodesL : List OsmNode) (waysL : List OsmWay) (b : Nat),
      edgeWeight (build_auxiliary_structures nodesL waysL) 0 b = none) ∧
    (∀ (gcd : Coord → Coord → ℚ) (fuel : Nat) (aux : Aux) (loc1 loc2 : Coord),
      get_nearest_node_id gcd loc1 aux = some 0 ∨
        get_nearest_node_id gcd loc2 aux = some 0 →
      find_short_path gcd fuel aux loc1 loc2 = some (Except.ok none) ∧
      find_fast_path gcd fuel aux loc1 loc2 = some (Except.ok none)) ∧
    ((dlookup auxZero.entries 0).isSome = true ∧
      get_nearest_node_id gcdL1 (0, 0) auxZero = some 0 ∧
      find_short_path gcdL1 10 auxZero (5, 5) (0, 0) = some (Except.ok none) ∧
      find_fast_path gcdL1 10 auxZero (5, 5) (0, 0) = some (Except.ok none) ∧
      uniform_cost_search gcdL1 10 1 0 (connNeighbors auxZero)
        (distCost gcdL1 auxZero) auxZero true = some (Except.ok (some [1, 0]))) := by
  refine ⟨?_, ?_, by with_unfolding_all decide⟩
  · intro nodesL waysL b
    rw [edgeWeight_build]
    have hnone : waysL.reverse.find? (fun w => wayRecords w 0 b) = none := by
      rw [List.find?_eq_none]
      intro w _
      simp [wayRecords]
    rw [hnone]
  · intro gcd fuel aux loc1 loc2 h
    rcases h with h | h <;>
      constructor <;>
      simp [find_short_path, find_fast_path, h, natOptTruthy]

/-- Witness for C10 at a concrete build and query. -/
theorem zero_node_id_truthiness_witness :
    edgeWeight (build_auxiliary_structures [mkNode 0 0 0, mkNode 1 5 5]
      [mkWay "residential" [1, 0]]) 0 1 = none ∧
    find_short_path gcdL1 10 auxZero (0, 0) (5, 5) = some (Except.ok none) :=
  ⟨zero_node_id_truthiness.1 [mkNode 0 0 0, mkNode 1 5 5]
      [mkWay "residential" [1, 0]] 1,
    (zero_node_id_truthiness.2.1 gcdL1 10 auxZero (0, 0) (5, 5)
      (Or.inl (by with_unfolding_all decide))).1⟩
